import Mathlib

/-
  Verification of the clustering + pillar-selection core of the
  keyword-research pipeline (src/processing/clustering.py).

  The Python class `KeywordClusterer` is shallowly embedded here.
  The external collaborators (the sentence-transformer model behind
  `self.model.encode` and the cosine-similarity routine from sklearn)
  are abstracted as function parameters: `encode : List String → List (List ℚ)`
  models one batched embedding call, and `sim : ℕ → ℕ → ℚ`
  (resp. `ℤ → ℤ → ℚ` where Python ints index a numpy matrix) models the
  entries of the matrix returned by `calculate_similarity_matrix`.
  Python floats are modelled as rationals; Python lists as Lean lists.
-/

set_option autoImplicit false

namespace Clusterer

open scoped List

/-- Python exceptions observable from the embedded functions.
`invalidInput` covers the failures of `build_hub_cluster_graph` on bad input
(the `ValueError` raised by `cosine_similarity` on an empty batch and the
`IndexError` raised by `topic_keywords[pillar_idx]` on an out-of-range index),
which realize the spec's InvalidInput error class.  `indexError` covers
out-of-range list accesses elsewhere (`keyword_data[i]`, `page_group[0]`,
`topic_keywords[representative_idx]`). -/
inductive Err where
  | invalidInput : Err
  | indexError : Err
deriving DecidableEq, Repr

/-- A keyword record as consumed by `select_pillar_keyword`: the only field the
function reads is `data.get('opportunity', 0)`, so a record is modelled as its
(optional) opportunity value; `none` models a dict without the key. -/
structure KWRecord where
  opportunity : Option ℚ
deriving DecidableEq, Repr

instance : DecidableEq (Except Err ℕ) := fun a b =>
  match a, b with
  | .ok x, .ok y =>
      if h : x = y then isTrue (by rw [h])
      else isFalse (fun hc => by cases hc; exact h rfl)
  | .error x, .error y =>
      if h : x = y then isTrue (by rw [h])
      else isFalse (fun hc => by cases hc; exact h rfl)
  | .ok _, .error _ => isFalse (fun hc => by cases hc)
  | .error _, .ok _ => isFalse (fun hc => by cases hc)

/-- `data.get('opportunity', 0)`: the opportunity value, defaulting to 0. -/
def effOpp (d : KWRecord) : ℚ :=
  d.opportunity.getD 0

/-- The loop of `select_pillar_keyword`:
`for i, kw in enumerate(keywords): ... if opportunity > max_opportunity: ...`.
`i` is the enumeration counter, `m` is `max_opportunity`, `p` is `pillar_idx`. -/
def selectGo : List KWRecord → ℕ → ℚ → ℕ → ℚ × ℕ
  | [], _, m, p => (m, p)
  | d :: rest, i, m, p =>
      if effOpp d > m then selectGo rest (i + 1) (effOpp d) i
      else selectGo rest (i + 1) m p

/-- `KeywordClusterer.select_pillar_keyword` (clustering.py lines 150-168).
The loop runs over `enumerate(keywords)` and reads `keyword_data[i]`; when
`keyword_data` is shorter than `keywords` the Python code raises `IndexError`
at the first missing position, hence the guard.  Only the first
`len(keywords)` records are ever read, hence the `take`. -/
def select_pillar_keyword (keywords : List String) (keyword_data : List KWRecord) :
    Except Err ℕ :=
  if keyword_data.length < keywords.length then .error .indexError
  else .ok (selectGo (keyword_data.take keywords.length) 0 (-1) 0).2

/-- The maximum effective opportunity over a record list, folded from the
loop's sentinel start value `-1`. -/
def maxEff (ds : List KWRecord) : ℚ :=
  (ds.map effOpp).foldl max (-1)

/-- First index attaining the maximum effective opportunity. -/
def firstArgmax (ds : List KWRecord) : ℕ :=
  ds.findIdx (fun d => decide (effOpp d = maxEff ds))

theorem le_foldl_max (l : List ℚ) (a : ℚ) : a ≤ l.foldl max a := by
  induction l generalizing a with
  | nil => exact le_refl a
  | cons x t ih => exact le_trans (le_max_left a x) (ih (max a x))

theorem mem_le_foldl_max (l : List ℚ) (a x : ℚ) (hx : x ∈ l) : x ≤ l.foldl max a := by
  induction l generalizing a with
  | nil => cases hx
  | cons y t ih =>
      rcases List.mem_cons.mp hx with h | h
      · subst h
        exact le_trans (le_max_right a x) (le_foldl_max t (max a x))
      · exact ih (max a y) h

theorem foldl_max_of_forall_le (l : List ℚ) (a : ℚ) (h : ∀ x ∈ l, x ≤ a) :
    l.foldl max a = a := by
  induction l with
  | nil => rfl
  | cons y t ih =>
      have hy : y ≤ a := h y (List.mem_cons_self y t)
      have : max a y = a := max_eq_left hy
      simp only [List.foldl_cons, this]
      exact ih (fun x hx => h x (List.mem_cons_of_mem y hx))

theorem foldl_max_mem_or (l : List ℚ) (a : ℚ) :
    l.foldl max a = a ∨ l.foldl max a ∈ l := by
  induction l generalizing a with
  | nil => exact Or.inl rfl
  | cons y t ih =>
      simp only [List.foldl_cons]
      rcases ih (max a y) with h | h
      · rcases max_cases a y with ⟨he, _⟩ | ⟨he, _⟩
        · exact Or.inl (h.trans he)
        · exact Or.inr (List.mem_cons.mpr (Or.inl (h.trans he)))
      · exact Or.inr (List.mem_cons_of_mem y h)

theorem selectGo_fst (ds : List KWRecord) (i : ℕ) (m : ℚ) (p : ℕ) :
    (selectGo ds i m p).1 = (ds.map effOpp).foldl max m := by
  induction ds generalizing i m p with
  | nil => rfl
  | cons d rest ih =>
      simp only [selectGo, List.map_cons, List.foldl_cons]
      by_cases h : effOpp d > m
      · rw [if_pos h, ih, max_eq_right (le_of_lt h)]
      · rw [if_neg h, ih, max_eq_left (le_of_not_lt h)]

theorem selectGo_stay (ds : List KWRecord) (i : ℕ) (m : ℚ) (p : ℕ)
    (h : ∀ d ∈ ds, effOpp d ≤ m) : selectGo ds i m p = (m, p) := by
  induction ds generalizing i with
  | nil => rfl
  | cons d rest ih =>
      have hd : ¬ effOpp d > m := not_lt.mpr (h d (List.mem_cons_self d rest))
      simp only [selectGo, if_neg hd]
      exact ih (i + 1) (fun x hx => h x (List.mem_cons_of_mem d hx))

theorem selectGo_idx (ds : List KWRecord) (i : ℕ) (m : ℚ) (p : ℕ)
    (hM : m < (ds.map effOpp).foldl max m) :
    (selectGo ds i m p).2 =
      i + ds.findIdx (fun d => decide (effOpp d = (ds.map effOpp).foldl max m)) := by
  induction ds generalizing i m p with
  | nil => exact absurd hM (lt_irrefl m)
  | cons d rest ih =>
      have hstep : ((d :: rest).map effOpp).foldl max m
          = (rest.map effOpp).foldl max (max m (effOpp d)) := by
        simp [List.map_cons, List.foldl_cons]
      by_cases h : effOpp d > m
      · have hmaxdm : max m (effOpp d) = effOpp d := max_eq_right (le_of_lt h)
        by_cases hr : ∀ x ∈ rest, effOpp x ≤ effOpp d
        · -- nothing in the tail beats d: the fold stays at effOpp d
          have hfold : (rest.map effOpp).foldl max (effOpp d) = effOpp d := by
            refine foldl_max_of_forall_le _ _ ?_
            intro x hx
            rcases List.mem_map.mp hx with ⟨r, hr', rfl⟩
            exact hr r hr'
          have hMval : ((d :: rest).map effOpp).foldl max m = effOpp d := by
            rw [hstep, hmaxdm, hfold]
          have hsel : selectGo (d :: rest) i m p = (effOpp d, i) := by
            simp only [selectGo, if_pos h]
            exact selectGo_stay rest (i + 1) (effOpp d) i
              (fun x hx => hr x hx)
          rw [hsel, hMval]
          rw [List.findIdx_cons]
          simp
        · -- some tail element beats d: recurse with the updated running max
          push_neg at hr
          rcases hr with ⟨x, hx, hxgt⟩
          have hM' : effOpp d < (rest.map effOpp).foldl max (effOpp d) :=
            lt_of_lt_of_le hxgt
              (mem_le_foldl_max _ _ _ (List.mem_map_of_mem effOpp hx))
          have hMval : ((d :: rest).map effOpp).foldl max m
              = (rest.map effOpp).foldl max (effOpp d) := by
            rw [hstep, hmaxdm]
          have hdne : ¬ (effOpp d = (rest.map effOpp).foldl max (effOpp d)) :=
            ne_of_lt hM'
          simp only [selectGo, if_pos h]
          rw [ih (i + 1) (effOpp d) i hM', hMval]
          rw [List.findIdx_cons, decide_eq_false hdne, cond_false]
          omega
      · have hmaxdm : max m (effOpp d) = m := max_eq_left (le_of_not_lt h)
        have hM' : m < (rest.map effOpp).foldl max m := by
          have hh := hM
          rw [hstep, hmaxdm] at hh
          exact hh
        have hMval : ((d :: rest).map effOpp).foldl max m
            = (rest.map effOpp).foldl max m := by
          rw [hstep, hmaxdm]
        have hdne : ¬ (effOpp d = (rest.map effOpp).foldl max m) :=
          ne_of_lt (lt_of_le_of_lt (le_of_not_lt h) hM')
        simp only [selectGo, if_neg h]
        rw [ih (i + 1) m p hM', hMval]
        rw [List.findIdx_cons, decide_eq_false hdne, cond_false]
        omega

/-- Characterization of `select_pillar_keyword` on length-matched inputs:
it returns the first index attaining the maximum effective opportunity
(`data.get('opportunity', 0)`) when that maximum beats the loop sentinel `-1`,
and index 0 otherwise. -/
theorem select_pillar_char (keywords : List String) (data : List KWRecord)
    (hlen : keywords.length = data.length) :
    select_pillar_keyword keywords data =
      .ok (if maxEff data > -1 then firstArgmax data else 0) := by
  unfold select_pillar_keyword
  rw [if_neg (by omega)]
  have htake : data.take keywords.length = data := by
    rw [hlen]
    exact List.take_length data
  rw [htake]
  by_cases hM : maxEff data > -1
  · rw [if_pos hM]
    have := selectGo_idx data 0 (-1) 0 hM
    unfold maxEff at hM
    rw [selectGo_idx data 0 (-1) 0 hM]
    simp [firstArgmax, maxEff]
  · rw [if_neg hM]
    have hle : ∀ d ∈ data, effOpp d ≤ -1 := by
      intro d hd
      have h1 : effOpp d ≤ maxEff data :=
        mem_le_foldl_max _ _ _ (List.mem_map_of_mem effOpp hd)

      have h2 : maxEff data ≤ -1 := le_of_not_lt hM
      exact le_trans h1 h2
    rw [selectGo_stay data 0 (-1) 0 hle]


/-- C10: `select_pillar_keyword` on an empty keyword list (and empty record
list) does not raise: the loop body never runs and the initial
`pillar_idx = 0` is returned, even though 0 is not a valid index into the
empty input. -/
theorem claim_C10 : select_pillar_keyword [] [] = .ok 0 := by
  decide

/-- C2 is false as stated: a record with a missing opportunity value is
treated as the default 0 (`data.get('opportunity', 0)`), not as the lowest
possible value.  Here record 0 has no opportunity value and record 1 has the
present value 0, yet `select_pillar_keyword` chooses index 0 — the
missing-valued record is chosen while a present-valued record exists. -/
theorem claim_C2_counterexample :
    select_pillar_keyword ["a", "b"]
        [{ opportunity := none }, { opportunity := some 0 }] = .ok 0 ∧
    ({ opportunity := none } : KWRecord).opportunity = none ∧
    ({ opportunity := some 0 } : KWRecord).opportunity.isSome = true := by
  refine ⟨?_, rfl, rfl⟩
  decide

/-- C2 (amended): a record whose opportunity value is missing is treated as
the value 0, so it is never chosen while any record with a present opportunity
value strictly greater than 0 exists (the chosen record then has a present,
positive value); if every record's opportunity is missing, index 0 is
returned. -/
theorem claim_C2 (keywords : List String) (data : List KWRecord)
    (hlen : keywords.length = data.length) :
    ((data.any fun d => decide (0 < effOpp d) && d.opportunity.isSome) = true →
      select_pillar_keyword keywords data = .ok (firstArgmax data) ∧
      (data.getD (firstArgmax data) { opportunity := none }).opportunity.isSome
        = true ∧
      0 < effOpp (data.getD (firstArgmax data) { opportunity := none })) ∧
    ((data.all fun d => d.opportunity.isNone) = true →
      select_pillar_keyword keywords data = .ok 0) := by
  constructor
  · intro hpos
    rcases List.any_eq_true.mp hpos with ⟨d, hd, hb⟩
    rw [Bool.and_eq_true] at hb
    rcases hb with ⟨hd0, _⟩
    have h0 : 0 < effOpp d := of_decide_eq_true hd0
    have hMd : effOpp d ≤ maxEff data :=
      mem_le_foldl_max _ _ _ (List.mem_map_of_mem effOpp hd)
    have hMpos : 0 < maxEff data := lt_of_lt_of_le h0 hMd
    have hMgt : maxEff data > -1 := lt_trans (by norm_num) hMpos
    have hattain : ∃ r ∈ data, (fun x => decide (effOpp x = maxEff data)) r = true := by
      rcases foldl_max_mem_or (data.map effOpp) (-1) with hc | hc
      · exact absurd hc (ne_of_gt hMgt)
      · rcases List.mem_map.mp hc with ⟨r, hr, hrM⟩
        exact ⟨r, hr, decide_eq_true hrM⟩
    have hlt : firstArgmax data < data.length :=
      List.findIdx_lt_length_of_exists hattain
    have hgetD : data.getD (firstArgmax data) { opportunity := none }
        = data.get ⟨firstArgmax data, hlt⟩ := by
      rw [List.getD_eq_getElem?_getD, List.getElem?_eq_getElem hlt]
      rfl
    have hchosen : effOpp (data.get ⟨firstArgmax data, hlt⟩) = maxEff data := by
      have hsat := @List.findIdx_getElem _ (fun x => decide (effOpp x = maxEff data))
        data hlt
      exact of_decide_eq_true hsat
    refine ⟨?_, ?_, ?_⟩
    · rw [select_pillar_char keywords data hlen, if_pos hMgt]
    · rw [hgetD]
      rcases hop : (data.get ⟨firstArgmax data, hlt⟩).opportunity with _ | v
      · exfalso
        have : effOpp (data.get ⟨firstArgmax data, hlt⟩) = 0 := by
          unfold effOpp
          rw [hop]
          rfl
        rw [this] at hchosen
        exact absurd hchosen.symm (ne_of_gt hMpos)
      · rfl
    · rw [hgetD, hchosen]
      exact hMpos
  · intro hall
    have hz : ∀ d ∈ data, effOpp d = 0 := by
      intro d hd
      have := List.all_eq_true.mp hall d hd
      rcases hop : d.opportunity with _ | v
      · simp [effOpp, hop]
      · rw [hop] at this
        simp [Option.isNone] at this
    rw [select_pillar_char keywords data hlen]
    cases data with
    | nil => simp [maxEff, firstArgmax]
    | cons d rest =>
        have hM0 : maxEff (d :: rest) = 0 := by
          have h1 : (0 : ℚ) ≤ maxEff (d :: rest) := by
            have : effOpp d = 0 := hz d (List.mem_cons_self d rest)
            have hm := mem_le_foldl_max ((d :: rest).map effOpp) (-1) (effOpp d)
              (List.mem_map_of_mem effOpp (List.mem_cons_self d rest))
            rw [this] at hm
            exact hm
          rcases foldl_max_mem_or ((d :: rest).map effOpp) (-1) with hc | hc
          · exfalso
            rw [maxEff] at h1
            rw [hc] at h1
            norm_num at h1
          · rcases List.mem_map.mp hc with ⟨r, hr, hrM⟩
            rw [maxEff, ← hrM, hz r hr]
        have hMgt : maxEff (d :: rest) > -1 := by
          rw [hM0]
          norm_num
        rw [if_pos hMgt]
        have hfind : firstArgmax (d :: rest) = 0 := by
          unfold firstArgmax
          rw [List.findIdx_cons]
          have : effOpp d = maxEff (d :: rest) := by
            rw [hM0]
            exact hz d (List.mem_cons_self d rest)
          rw [decide_eq_true this, cond_true]
        rw [hfind]

/-- Witness for the amended C2 at a concrete input: records with opportunity
scores `[5, missing]`; record 0 (present, positive) is chosen. -/
theorem claim_C2_witness :
    (["a", "b"] : List String).length
        = ([{ opportunity := some 5 }, { opportunity := none }] : List KWRecord).length ∧
    (([{ opportunity := some 5 }, { opportunity := none }] : List KWRecord).any
        fun d => decide (0 < effOpp d) && d.opportunity.isSome) = true ∧
    (select_pillar_keyword ["a", "b"]
        [{ opportunity := some 5 }, { opportunity := none }]
      = .ok (firstArgmax [{ opportunity := some 5 }, { opportunity := none }]) ∧
    (([{ opportunity := some 5 }, { opportunity := none }] : List KWRecord).getD
        (firstArgmax [{ opportunity := some 5 }, { opportunity := none }])
        { opportunity := none }).opportunity.isSome = true ∧
    0 < effOpp (([{ opportunity := some 5 }, { opportunity := none }] : List KWRecord).getD
        (firstArgmax [{ opportunity := some 5 }, { opportunity := none }])
        { opportunity := none })) :=
  ⟨by decide, by decide,
    (claim_C2 ["a", "b"] [{ opportunity := some 5 }, { opportunity := none }]
        (by decide)).1 (by decide)⟩

/-- C6 is false as stated: with opportunity scores `[-5, -3]` (all present),
the maximum is attained only at index 1, but the code returns index 0 because
no score beats the `-1` sentinel that initializes `max_opportunity`. -/
theorem claim_C6_counterexample :
    select_pillar_keyword ["a", "b"]
        [{ opportunity := some (-5) }, { opportunity := some (-3) }] = .ok 0 ∧
    effOpp { opportunity := some (-5) } < effOpp { opportunity := some (-3) } := by
  constructor
  · decide
  · decide

/-- C6 (amended): whenever the maximum effective opportunity value
(missing treated as 0) beats the `-1` sentinel — in particular for any
records with non-negative scores — `select_pillar_keyword` returns the lowest
index among the records attaining that maximum (first occurrence wins on
exact ties); in particular for scores `[10, 95, 95, 3]` it returns index 1. -/
theorem claim_C6 (keywords : List String) (data : List KWRecord)
    (hlen : keywords.length = data.length) (hM : -1 < maxEff data) :
    select_pillar_keyword keywords data = .ok (firstArgmax data) := by
  rw [select_pillar_char keywords data hlen, if_pos hM]

/-- Witness for the amended C6: the spec's own example `[10, 95, 95, 3]`
returns index 1 (first occurrence of the maximum 95). -/
theorem claim_C6_witness :
    (["a", "b", "c", "d"] : List String).length
        = ([{ opportunity := some 10 }, { opportunity := some 95 },
            { opportunity := some 95 }, { opportunity := some 3 }] : List KWRecord).length ∧
    -1 < maxEff [{ opportunity := some 10 }, { opportunity := some 95 },
            { opportunity := some 95 }, { opportunity := some 3 }] ∧
    select_pillar_keyword ["a", "b", "c", "d"]
        [{ opportunity := some 10 }, { opportunity := some 95 },
         { opportunity := some 95 }, { opportunity := some 3 }] = .ok 1 :=
  ⟨by decide, by decide,
    (claim_C6 ["a", "b", "c", "d"]
        [{ opportunity := some 10 }, { opportunity := some 95 },
         { opportunity := some 95 }, { opportunity := some 3 }]
        (by decide) (by decide)).trans (by decide)⟩

/-- `set(kw.lower().split())`: the lowercase whitespace-tokenized word set of
a keyword.  Python's argumentless `str.split()` splits on runs of whitespace
and yields no empty tokens, hence the filter. -/
def tokenSet (kw : String) : Finset String :=
  ((kw.toLower.split Char.isWhitespace).filter (fun t => t ≠ "")).toFinset

/-- `intersection / union if union > 0 else 0.0` for a pair of token sets
(clustering.py lines 142-144). -/
def jaccardSets (A B : Finset String) : ℚ :=
  if (A ∪ B).card > 0 then ((A ∩ B).card : ℚ) / ((A ∪ B).card) else 0

/-- One entry of `_calculate_token_overlap_matrix` (clustering.py lines
129-148).  The Python loop visits each pair `(i, j)` with `i ≤ j` once,
writes 1.0 on the diagonal, and otherwise stores the Jaccard value at both
`(i, j)` and `(j, i)`; so the entry at `(i, j)` with `i > j` holds the value
computed for the visited pair `(j, i)`. -/
def token_overlap (keywords : List String) (i j : ℕ) : ℚ :=
  if i = j then 1
  else if i < j then
    jaccardSets (tokenSet (keywords.getD i "")) (tokenSet (keywords.getD j ""))
  else
    jaccardSets (tokenSet (keywords.getD j "")) (tokenSet (keywords.getD i ""))

theorem jaccardSets_comm (A B : Finset String) :
    jaccardSets A B = jaccardSets B A := by
  unfold jaccardSets
  rw [Finset.union_comm, Finset.inter_comm]

/-- C8: each entry of the lexical similarity matrix equals the Jaccard
similarity `|A∩B| / |A∪B|` of the two keywords' lowercase whitespace-tokenized
word sets, is 0.0 when the union of the token sets is empty, is exactly 1.0 on
the diagonal (even for empty token sets), and the matrix is symmetric. -/
theorem claim_C8 (keywords : List String) (i j : ℕ)
    (hi : i < keywords.length) (hj : j < keywords.length) :
    token_overlap keywords i j = token_overlap keywords j i ∧
    token_overlap keywords i i = 1 ∧
    (i ≠ j →
      ((tokenSet (keywords.getD i "") ∪ tokenSet (keywords.getD j "")).card = 0 →
        token_overlap keywords i j = 0) ∧
      ((tokenSet (keywords.getD i "") ∪ tokenSet (keywords.getD j "")).card ≠ 0 →
        token_overlap keywords i j =
          ((tokenSet (keywords.getD i "") ∩ tokenSet (keywords.getD j "")).card : ℚ)
            / ((tokenSet (keywords.getD i "") ∪ tokenSet (keywords.getD j "")).card))) := by
  refine ⟨?_, ?_, ?_⟩
  · unfold token_overlap
    rcases lt_trichotomy i j with h | h | h
    · rw [if_neg (ne_of_lt h), if_pos h, if_neg (ne_of_gt h),
        if_neg (not_lt.mpr (le_of_lt h))]
    · rw [h]
    · rw [if_neg (ne_of_gt h), if_neg (not_lt.mpr (le_of_lt h)),
        if_neg (ne_of_lt h), if_pos h]
  · unfold token_overlap
    rw [if_pos rfl]
  · intro hne
    have hform : token_overlap keywords i j =
        jaccardSets (tokenSet (keywords.getD i "")) (tokenSet (keywords.getD j "")) := by
      unfold token_overlap
      rcases lt_trichotomy i j with h | h | h
      · rw [if_neg hne, if_pos h]
      · exact absurd h hne
      · rw [if_neg hne, if_neg (not_lt.mpr (le_of_lt h))]
        exact jaccardSets_comm _ _
    constructor
    · intro hu
      rw [hform]
      unfold jaccardSets
      rw [if_neg (by omega)]
    · intro hu
      rw [hform]
      unfold jaccardSets
      rw [if_pos (by omega)]

/-- Witness for C8 at a concrete pair of keywords. -/
theorem claim_C8_witness :
    (0 < (["crm software", "crm pricing"] : List String).length ∧
     1 < (["crm software", "crm pricing"] : List String).length) ∧
    (token_overlap ["crm software", "crm pricing"] 0 1
        = token_overlap ["crm software", "crm pricing"] 1 0 ∧
     token_overlap ["crm software", "crm pricing"] 0 0 = 1 ∧
     ((0 : ℕ) ≠ 1 →
      ((tokenSet ((["crm software", "crm pricing"] : List String).getD 0 "")
          ∪ tokenSet ((["crm software", "crm pricing"] : List String).getD 1 "")).card = 0 →
        token_overlap ["crm software", "crm pricing"] 0 1 = 0) ∧
      ((tokenSet ((["crm software", "crm pricing"] : List String).getD 0 "")
          ∪ tokenSet ((["crm software", "crm pricing"] : List String).getD 1 "")).card ≠ 0 →
        token_overlap ["crm software", "crm pricing"] 0 1 =
          ((tokenSet ((["crm software", "crm pricing"] : List String).getD 0 "")
              ∩ tokenSet ((["crm software", "crm pricing"] : List String).getD 1 "")).card : ℚ)
            / ((tokenSet ((["crm software", "crm pricing"] : List String).getD 0 "")
              ∪ tokenSet ((["crm software", "crm pricing"] : List String).getD 1 "")).card)))) :=
  ⟨⟨by decide, by decide⟩,
    claim_C8 ["crm software", "crm pricing"] 0 1 (by decide) (by decide)⟩

/-- The embedding cache `self.embeddings_cache`: a dict from keyword strings
to embedding vectors, modelled as an association list in which a newer binding
shadows an older one (Python dict assignment overwrites). -/
abbrev Cache := List (String × List ℚ)

/-- Dict lookup: first (newest) binding wins. -/
def cacheFind : Cache → String → Option (List ℚ)
  | [], _ => none
  | (k, v) :: rest, kw => if kw = k then some v else cacheFind rest kw

/-- `np.array([self.embeddings_cache[kw] for kw in keywords])`; `none` models
the `KeyError` raised when some keyword is missing from the cache. -/
def lookupRows (c : Cache) : List String → Option (List (List ℚ))
  | [] => some []
  | k :: ks =>
      match cacheFind c k, lookupRows c ks with
      | some v, some rs => some (v :: rs)
      | _, _ => none

/-- `KeywordClusterer.get_embeddings` (clustering.py lines 20-38), with the
external `self.model.encode` abstracted as the `encode` parameter.  Returns
the embedding matrix (`none` = `KeyError`), the updated cache, and the list of
batches passed to `encode`: the code performs at most one batched call, on the
keywords not found in the cache, and skips it when everything is cached
(`if uncached:`).  For each `(kw, emb)` of `zip(uncached, new_embeddings)`
(`zip` truncates at the shorter argument) the loop assigns
`self.embeddings_cache[kw] = emb`, i.e. prepends a shadowing binding.  The
local `uncached_indices` of the Python code is dead (never read) and omitted. -/
def get_embeddings (encode : List String → List (List ℚ)) (cache : Cache)
    (keywords : List String) :
    Option (List (List ℚ)) × Cache × List (List String) :=
  let uncached := keywords.filter (fun kw => (cacheFind cache kw).isNone)
  let cache2 :=
    if uncached.isEmpty then cache
    else (uncached.zip (encode uncached)).foldl (fun c kv => kv :: c) cache
  (lookupRows cache2 keywords, cache2, if uncached.isEmpty then [] else [uncached])

theorem cacheFind_foldl_of_not_key (pairs : List (String × List ℚ))
    (cache : Cache) (k : String) (h : ∀ p ∈ pairs, p.1 ≠ k) :
    cacheFind (pairs.foldl (fun c kv => kv :: c) cache) k = cacheFind cache k := by
  induction pairs generalizing cache with
  | nil => rfl
  | cons p ps ih =>
      simp only [List.foldl_cons]
      rw [ih (p :: cache) (fun q hq => h q (List.mem_cons_of_mem p hq))]
      have hne : k ≠ p.1 := fun hc => h p (List.mem_cons_self p ps) hc.symm
      rcases p with ⟨k₀, v₀⟩
      simp only [cacheFind]
      rw [if_neg hne]

theorem cacheFind_foldl_isSome (pairs : List (String × List ℚ))
    (cache : Cache) (k : String)
    (h : (cacheFind cache k).isSome = true ∨ k ∈ pairs.map Prod.fst) :
    (cacheFind (pairs.foldl (fun c kv => kv :: c) cache) k).isSome = true := by
  induction pairs generalizing cache with
  | nil =>
      rcases h with h | h
      · exact h
      · cases h
  | cons p ps ih =>
      simp only [List.foldl_cons]
      refine ih (p :: cache) ?_
      rcases p with ⟨k₀, v₀⟩
      by_cases hk : k = k₀
      · left
        simp only [cacheFind, if_pos hk, Option.isSome_some]
      · rcases h with h | h
        · left
          simp only [cacheFind, if_neg hk]
          exact h
        · rw [List.map_cons] at h
          rcases List.mem_cons.mp h with h' | h'
          · exact absurd h' hk
          · exact Or.inr h'

theorem lookupRows_eq_map (c : Cache) (ks : List String)
    (h : ∀ k ∈ ks, (cacheFind c k).isSome = true) :
    lookupRows c ks = some (ks.map fun k => (cacheFind c k).getD []) := by
  induction ks with
  | nil => rfl
  | cons k t ih =>
      have hk := h k (List.mem_cons_self k t)
      rcases hfind : cacheFind c k with _ | v
      · rw [hfind] at hk
        cases hk
      · simp only [lookupRows, hfind,
          ih (fun x hx => h x (List.mem_cons_of_mem k hx)), List.map_cons]
        rfl

/-- C5: `get_embeddings` returns one row per input keyword in input order —
row `n` is the final cache entry of `keywords[n]`, so duplicate strings get
identical rows; at most one batched `encode` call is made, exactly on the
keywords not already cached (none when all are cached); and every
previously-cached keyword keeps its vector and is answered from the cache. -/
theorem claim_C5 (encode : List String → List (List ℚ)) (cache : Cache)
    (keywords : List String)
    (henc : (encode (keywords.filter fun kw => (cacheFind cache kw).isNone)).length
        = (keywords.filter fun kw => (cacheFind cache kw).isNone).length) :
    (get_embeddings encode cache keywords).1
      = some (keywords.map fun k =>
          (cacheFind (get_embeddings encode cache keywords).2.1 k).getD []) ∧
    (∀ k v, cacheFind cache k = some v →
      cacheFind (get_embeddings encode cache keywords).2.1 k = some v) ∧
    (get_embeddings encode cache keywords).2.2.length ≤ 1 ∧
    (∀ batch ∈ (get_embeddings encode cache keywords).2.2, ∀ k,
      (k ∈ batch ↔ k ∈ keywords ∧ cacheFind cache k = none)) ∧
    ((get_embeddings encode cache keywords).2.2 = [] ↔
      ∀ k ∈ keywords, (cacheFind cache k).isSome = true) := by
  have hkeys : ((keywords.filter fun kw => (cacheFind cache kw).isNone).zip
      (encode (keywords.filter fun kw => (cacheFind cache kw).isNone))).map Prod.fst
      = keywords.filter fun kw => (cacheFind cache kw).isNone :=
    List.map_fst_zip _ _ (le_of_eq henc.symm)
  have hpreserve : ∀ k v, cacheFind cache k = some v →
      cacheFind (get_embeddings encode cache keywords).2.1 k = some v := by
    intro k v hkv
    unfold get_embeddings
    simp only
    by_cases hemp : (keywords.filter fun kw => (cacheFind cache kw).isNone).isEmpty
    · rw [if_pos hemp]
      exact hkv
    · rw [if_neg hemp]
      rw [cacheFind_foldl_of_not_key _ _ _ ?_]
      · exact hkv
      · intro p hp hcontra
        have hpfst : p.1 ∈ (keywords.filter
            fun kw => (cacheFind cache kw).isNone) := by
          rw [← hkeys]
          exact List.mem_map_of_mem Prod.fst hp
        have := (List.mem_filter.mp hpfst).2
        rw [hcontra, hkv] at this
        cases this
  have hsome : ∀ k ∈ keywords,
      (cacheFind (get_embeddings encode cache keywords).2.1 k).isSome = true := by
    intro k hk
    unfold get_embeddings
    simp only
    by_cases hemp : (keywords.filter fun kw => (cacheFind cache kw).isNone).isEmpty
    · rw [if_pos hemp]
      by_cases hc : (cacheFind cache k).isSome
      · exact hc
      · exfalso
        have : k ∈ keywords.filter fun kw => (cacheFind cache kw).isNone := by
          refine List.mem_filter.mpr ⟨hk, ?_⟩
          rcases hx : cacheFind cache k with _ | v
          · rfl
          · rw [hx] at hc
            exact absurd rfl hc
        rw [List.isEmpty_iff] at hemp
        rw [hemp] at this
        cases this
    · rw [if_neg hemp]
      refine cacheFind_foldl_isSome _ _ _ ?_
      by_cases hc : (cacheFind cache k).isSome
      · exact Or.inl hc
      · right
        rw [hkeys]
        refine List.mem_filter.mpr ⟨hk, ?_⟩
        rcases hx : cacheFind cache k with _ | v
        · rfl
        · rw [hx] at hc
          exact absurd rfl hc
  refine ⟨?_, hpreserve, ?_, ?_, ?_⟩
  · have := lookupRows_eq_map (get_embeddings encode cache keywords).2.1 keywords hsome
    unfold get_embeddings at this ⊢
    simp only at this ⊢
    exact this
  · unfold get_embeddings
    simp only
    by_cases hemp : (keywords.filter fun kw => (cacheFind cache kw).isNone).isEmpty
    · rw [if_pos hemp]
      simp
    · rw [if_neg hemp]
      simp
  · intro batch hbatch k
    unfold get_embeddings at hbatch
    simp only at hbatch
    by_cases hemp : (keywords.filter fun kw => (cacheFind cache kw).isNone).isEmpty
    · rw [if_pos hemp] at hbatch
      cases hbatch
    · rw [if_neg hemp] at hbatch
      rcases List.mem_singleton.mp hbatch with rfl
      constructor
      · intro hkb
        have := List.mem_filter.mp hkb
        refine ⟨this.1, ?_⟩
        rcases hx : cacheFind cache k with _ | v
        · rfl
        · rw [hx] at this
          cases this.2
      · intro hkk
        refine List.mem_filter.mpr ⟨hkk.1, ?_⟩
        rw [hkk.2]
        rfl
  · unfold get_embeddings
    simp only
    by_cases hemp : (keywords.filter fun kw => (cacheFind cache kw).isNone).isEmpty
    · rw [if_pos hemp]
      simp only [true_iff]
      intro k hk
      rw [List.isEmpty_iff] at hemp
      by_cases hc : (cacheFind cache k).isSome
      · exact hc
      · exfalso
        have : k ∈ keywords.filter fun kw => (cacheFind cache kw).isNone := by
          refine List.mem_filter.mpr ⟨hk, ?_⟩
          rcases hx : cacheFind cache k with _ | v
          · rfl
          · rw [hx] at hc
            exact absurd rfl hc
        rw [hemp] at this
        cases this
    · rw [if_neg hemp]
      simp only [List.cons_ne_self]
      constructor
      · intro hfalse
        cases hfalse
      · intro hall
        exfalso
        rcases hne : keywords.filter fun kw => (cacheFind cache kw).isNone with _ | ⟨k, t⟩
        · rw [hne] at hemp
          exact hemp rfl
        · have hkmem : k ∈ keywords.filter fun kw => (cacheFind cache kw).isNone := by
            rw [hne]
            exact List.mem_cons_self k t
          have hm := List.mem_filter.mp hkmem
          have := hall k hm.1
          rw [Option.isNone_iff_eq_none.mp hm.2] at this
          cases this

/-- A concrete stand-in for the external embedding model, used by the C5
witness: each keyword maps to the one-dimensional vector of its length. -/
def encLen : List String → List (List ℚ) :=
  fun l => l.map (fun s => ([(s.length : ℚ)] : List ℚ))

/-- The cache state after a first call `get_embeddings(["a", "b"])` on an
empty cache. -/
def cacheAB : Cache := (get_embeddings encLen [] ["a", "b"]).2.1

/-- Witness for C5: after embedding `["a", "b"]`, a second call on
`["a", "b", "c"]` satisfies the contract; moreover the second call's only
batch is `["c"]` and the vectors of `"a"` and `"b"` are returned unchanged
from the cache. -/
theorem claim_C5_witness :
    ((encLen ((["a", "b", "c"] : List String).filter
          fun kw => (cacheFind cacheAB kw).isNone)).length
        = ((["a", "b", "c"] : List String).filter
          fun kw => (cacheFind cacheAB kw).isNone).length) ∧
    ((get_embeddings encLen cacheAB ["a", "b", "c"]).1
      = some ((["a", "b", "c"] : List String).map fun k =>
          (cacheFind (get_embeddings encLen cacheAB ["a", "b", "c"]).2.1 k).getD []) ∧
     (∀ k v, cacheFind cacheAB k = some v →
        cacheFind (get_embeddings encLen cacheAB ["a", "b", "c"]).2.1 k = some v) ∧
     (get_embeddings encLen cacheAB ["a", "b", "c"]).2.2.length ≤ 1 ∧
     (∀ batch ∈ (get_embeddings encLen cacheAB ["a", "b", "c"]).2.2, ∀ k,
        (k ∈ batch ↔ k ∈ (["a", "b", "c"] : List String) ∧ cacheFind cacheAB k = none)) ∧
     ((get_embeddings encLen cacheAB ["a", "b", "c"]).2.2 = [] ↔
        ∀ k ∈ (["a", "b", "c"] : List String), (cacheFind cacheAB k).isSome = true)) ∧
    (get_embeddings encLen cacheAB ["a", "b", "c"]).2.2 = [["c"]] ∧
    cacheFind (get_embeddings encLen cacheAB ["a", "b", "c"]).2.1 "a"
      = cacheFind cacheAB "a" ∧
    cacheFind (get_embeddings encLen cacheAB ["a", "b", "c"]).2.1 "b"
      = cacheFind cacheAB "b" :=
  ⟨by decide, claim_C5 encLen cacheAB ["a", "b", "c"] (by decide),
    by decide, by decide, by decide⟩

/-- Average linkage between two clusters of indices: the mean of all pairwise
distances (UPGMA, sklearn's `linkage='average'` on a precomputed matrix). -/
def linkage (dist : ℕ → ℕ → ℚ) (A B : List ℕ) : ℚ :=
  (A.map (fun a => (B.map (fun b => dist a b)).sum)).sum
    / ((A.length : ℚ) * (B.length : ℚ))

/-- All pairs of cluster positions `(p, q)` with `p < q < m`. -/
def pairList (m : ℕ) : List (ℕ × ℕ) :=
  (List.range m).flatMap
    (fun p => ((List.range m).filter (fun q => p < q)).map (fun q => (p, q)))

/-- The next merge candidate: the pair of cluster positions with the smallest
average-linkage distance (the first such pair found on ties — sklearn's tie
order is unspecified, and no claim depends on it). -/
def bestPair (dist : ℕ → ℕ → ℚ) (cs : List (List ℕ)) : Option (ℕ × ℕ × ℚ) :=
  (pairList cs.length).foldl
    (fun acc pq =>
      let v := linkage dist (cs.getD pq.1 []) (cs.getD pq.2 [])
      match acc with
      | none => some (pq.1, pq.2, v)
      | some best => if v < best.2.2 then some (pq.1, pq.2, v) else some best)
    none

/-- One agglomerative merge: the clusters at positions `p < q` are replaced by
their concatenation. -/
def mergeStep (p q : ℕ) (cs : List (List ℕ)) : List (List ℕ) :=
  (cs.getD p [] ++ cs.getD q []) :: ((cs.eraseIdx q).eraseIdx p)

/-- The agglomerative loop: keep merging the closest pair of clusters while
its average-linkage distance is strictly below `dthresh` (sklearn's
`distance_threshold` is the value "at or above which clusters will not be
merged").  `fuel` bounds the number of merges; each merge removes one cluster,
so `cs.length` fuel always suffices. -/
def aggloFuel (dist : ℕ → ℕ → ℚ) (dthresh : ℚ) : ℕ → List (List ℕ) → List (List ℕ)
  | 0, cs => cs
  | fuel + 1, cs =>
      match bestPair dist cs with
      | none => cs
      | some (p, q, v) =>
          if v < dthresh then aggloFuel dist dthresh fuel (mergeStep p q cs)
          else cs

/-- The starting clustering: one singleton cluster per index. -/
def initClusters (n : ℕ) : List (List ℕ) :=
  (List.range n).map (fun i => [i])

/-- Model of `AgglomerativeClustering(n_clusters=None, distance_threshold=d,
metric='precomputed', linkage='average').fit_predict(distance)` for `n`
items: the label of index `i` is the position of the cluster containing `i`
in the final cluster list.  (sklearn numbers its labels differently, but the
caller only groups indices by label, so any bijective relabelling is
observationally equivalent.) -/
def fit_predict (dist : ℕ → ℕ → ℚ) (dthresh : ℚ) (n : ℕ) : ℕ → ℕ :=
  fun i => (aggloFuel dist dthresh n (initClusters n)).findIdx
    (fun c => decide (i ∈ c))

/-- Deduplication keeping first occurrences, in order: the sequence of
distinct dict keys in insertion order. -/
def firstDedup : List ℕ → List ℕ
  | [] => []
  | x :: xs => x :: firstDedup (xs.filter (fun y => y ≠ x))
termination_by l => l.length
decreasing_by
  simp only [List.length_cons]
  exact Nat.lt_succ_of_le (List.length_filter_le _ xs)

/-- The label-grouping loop shared by `cluster_topics` and `cluster_pages`
(clustering.py lines 76-83 and 120-127): `clusters[label].append(idx)` over
`enumerate(labels)`, then `list(clusters.values())` — buckets of indices in
increasing order, listed in first-occurrence order of their labels. -/
def groupByLabel (labels : ℕ → ℕ) (n : ℕ) : List (List ℕ) :=
  (firstDedup ((List.range n).map labels)).map
    (fun l => (List.range n).filter (fun i => decide (labels i = l)))

/-- The clustering pipeline shared by `cluster_topics` and `cluster_pages`
for `n ≥ 2` items, given the distance matrix `dist` already derived from the
similarity matrix: fit labels with `distance_threshold = 1 - threshold`, then
group indices by label. -/
def cluster_core (dist : ℕ → ℕ → ℚ) (threshold : ℚ) (n : ℕ) : List (List ℕ) :=
  groupByLabel (fit_predict dist (1 - threshold) n) n

/-- `KeywordClusterer.cluster_topics` (clustering.py lines 46-83), with the
semantic similarity matrix of `calculate_similarity_matrix(keywords)` (cosine
over external embeddings) abstracted as `sim`.  `distance = 1 - similarity`. -/
def cluster_topics (sim : ℕ → ℕ → ℚ) (keywords : List String) (threshold : ℚ) :
    List (List ℕ) :=
  if keywords.length < 2 then (if keywords.isEmpty then [] else [[0]])
  else cluster_core (fun i j => 1 - sim i j) threshold keywords.length

/-- `combined_similarity = (similarity + token_overlap) / 2.0`
(clustering.py line 105). -/
def combined_similarity (sim : ℕ → ℕ → ℚ) (keywords : List String) (i j : ℕ) : ℚ :=
  (sim i j + token_overlap keywords i j) / 2

/-- `KeywordClusterer.cluster_pages` (clustering.py lines 85-127): same
pipeline, but the distance fed to the clusterer is 1 minus the elementwise
average of the semantic and lexical matrices. -/
def cluster_pages (sim : ℕ → ℕ → ℚ) (keywords : List String) (threshold : ℚ) :
    List (List ℕ) :=
  if keywords.length < 2 then (if keywords.isEmpty then [] else [[0]])
  else cluster_core (fun i j => 1 - combined_similarity sim keywords i j)
    threshold keywords.length

theorem mem_firstDedup (l : List ℕ) (a : ℕ) : a ∈ firstDedup l ↔ a ∈ l := by
  induction l using firstDedup.induct with
  | case1 => simp [firstDedup]
  | case2 x xs ih =>
      rw [firstDedup]
      constructor
      · intro h
        rcases List.mem_cons.mp h with h | h
        · exact h ▸ List.mem_cons_self x xs
        · have := ih.mp h
          exact List.mem_cons_of_mem x (List.mem_filter.mp this).1
      · intro h
        rcases List.mem_cons.mp h with h | h
        · exact h ▸ List.mem_cons_self x _
        · by_cases hax : a = x
          · exact hax ▸ List.mem_cons_self x _
          · refine List.mem_cons_of_mem x (ih.mpr ?_)
            exact List.mem_filter.mpr ⟨h, decide_eq_true hax⟩

theorem nodup_firstDedup (l : List ℕ) : (firstDedup l).Nodup := by
  induction l using firstDedup.induct with
  | case1 => simp [firstDedup]
  | case2 x xs ih =>
      rw [firstDedup]
      refine List.nodup_cons.mpr ⟨?_, ih⟩
      intro hx
      have := (mem_firstDedup _ _).mp hx
      have := (List.mem_filter.mp this).2
      simp at this

theorem count_range_eq (n i : ℕ) :
    (List.range n).count i = if i < n then 1 else 0 := by
  by_cases h : i < n
  · rw [if_pos h]
    have hmem : i ∈ List.range n := List.mem_range.mpr h
    have hle := List.nodup_iff_count_le_one.mp (List.nodup_range n) i
    have hpos := List.count_pos_iff.mpr hmem
    omega
  · rw [if_neg h]
    exact List.count_eq_zero_of_not_mem (fun hc => h (List.mem_range.mp hc))

theorem buckets_count (labels : ℕ → ℕ) (n i : ℕ) (D : List ℕ) (hD : D.Nodup) :
    ((D.map (fun l => (List.range n).filter (fun k => decide (labels k = l)))).flatten).count i
      = if i < n ∧ labels i ∈ D then 1 else 0 := by
  induction D with
  | nil => simp
  | cons l D' ih =>
      rcases List.nodup_cons.mp hD with ⟨hlD, hD'⟩
      simp only [List.map_cons, List.flatten_cons, List.count_append]
      rw [ih hD']
      by_cases hli : labels i = l
      · by_cases hin : i < n
        · have hb : ((List.range n).filter (fun k => decide (labels k = l))).count i
              = 1 := by
            rw [List.count_filter (by simp [hli]), count_range_eq, if_pos hin]
          have hnot1 : ¬ (i < n ∧ labels i ∈ D') := fun hc => hlD (hli ▸ hc.2)
          have hyes2 : i < n ∧ labels i ∈ l :: D' := by
            refine ⟨hin, ?_⟩
            rw [hli]
            exact List.mem_cons_self l D'
          rw [hb, if_neg hnot1, if_pos hyes2]
        · have hb : ((List.range n).filter (fun k => decide (labels k = l))).count i
              = 0 := by
            refine List.count_eq_zero_of_not_mem (fun hc => ?_)
            exact hin (List.mem_range.mp (List.mem_filter.mp hc).1)
          have hnot1 : ¬ (i < n ∧ labels i ∈ D') := fun hc => hin hc.1
          have hnot2 : ¬ (i < n ∧ labels i ∈ l :: D') := fun hc => hin hc.1
          rw [hb, if_neg hnot1, if_neg hnot2]
      · have hb : ((List.range n).filter (fun k => decide (labels k = l))).count i
            = 0 := by
          refine List.count_eq_zero_of_not_mem (fun hc => ?_)
          have := (List.mem_filter.mp hc).2
          exact hli (of_decide_eq_true this)
        have hmem : (labels i ∈ l :: D') ↔ labels i ∈ D' := by
          constructor
          · intro hc
            rcases List.mem_cons.mp hc with hc | hc
            · exact absurd hc hli
            · exact hc
          · exact List.mem_cons_of_mem l
        have hAB : (if (i < n ∧ labels i ∈ l :: D') then (1 : ℕ) else 0)
            = if (i < n ∧ labels i ∈ D') then 1 else 0 :=
          if_congr (and_congr_right (fun _ => hmem)) rfl rfl
        rw [hb, hAB, Nat.zero_add]

theorem groupByLabel_count (labels : ℕ → ℕ) (n i : ℕ) :
    (groupByLabel labels n).flatten.count i = if i < n then 1 else 0 := by
  unfold groupByLabel
  rw [buckets_count labels n i _ (nodup_firstDedup _)]
  by_cases hin : i < n
  · have hmem2 : labels i ∈ firstDedup ((List.range n).map labels) := by
      rw [mem_firstDedup]
      exact List.mem_map_of_mem labels (List.mem_range.mpr hin)
    rw [if_pos (show i < n ∧ labels i ∈ firstDedup ((List.range n).map labels)
      from ⟨hin, hmem2⟩), if_pos hin]
  · rw [if_neg (show ¬ (i < n ∧ labels i ∈ firstDedup ((List.range n).map labels))
      from fun hc => hin hc.1), if_neg hin]

theorem countP_le_flatten_count (cs : List (List ℕ)) (i : ℕ) :
    cs.countP (fun c => decide (i ∈ c)) ≤ cs.flatten.count i := by
  induction cs with
  | nil => simp
  | cons c rest ih =>
      rw [List.countP_cons, List.flatten_cons, List.count_append]
      by_cases hc : i ∈ c
      · have h1 : 0 < c.count i := List.count_pos_iff.mpr hc
        rw [if_pos (decide_eq_true hc)]
        omega
      · rw [if_neg (by simp [hc])]
        omega

theorem countP_of_flatten_count (cs : List (List ℕ)) (i : ℕ)
    (h : cs.flatten.count i = if i ∈ cs.flatten then 1 else 0) :
    cs.countP (fun c => decide (i ∈ c)) = cs.flatten.count i := by
  by_cases hm : i ∈ cs.flatten
  · rw [if_pos hm] at h
    have hle := countP_le_flatten_count cs i
    rcases List.mem_flatten.mp hm with ⟨c, hc, hic⟩
    have hpos : 0 < cs.countP (fun c => decide (i ∈ c)) :=
      List.countP_pos_iff.mpr ⟨c, hc, decide_eq_true hic⟩
    omega
  · rw [if_neg hm] at h
    rw [h]
    refine List.countP_eq_zero.mpr ?_
    intro c hc hdec
    exact hm (List.mem_flatten.mpr ⟨c, hc, of_decide_eq_true hdec⟩)

theorem cluster_pipeline_count (dist : ℕ → ℕ → ℚ) (threshold : ℚ)
    (keywords : List String) (i : ℕ) :
    (if keywords.length < 2 then (if keywords.isEmpty then [] else [[0]])
     else cluster_core dist threshold keywords.length).flatten.count i
      = if i < keywords.length then 1 else 0 := by
  by_cases hlt : keywords.length < 2
  · rw [if_pos hlt]
    by_cases hemp : keywords.isEmpty
    · rw [if_pos hemp]
      rw [List.isEmpty_iff] at hemp
      subst hemp
      simp
    · rw [if_neg hemp]
      have hlen : keywords.length = 1 := by
        rcases keywords with _ | ⟨k, t⟩
        · exact absurd rfl hemp
        · simp only [List.length_cons] at hlt ⊢
          omega
      rw [hlen]
      have hfl : ([[0]] : List (List ℕ)).flatten = [0] := rfl
      rw [hfl]
      by_cases hi : i = 0
      · subst hi
        decide
      · rw [List.count_eq_zero_of_not_mem (by simp [hi]), if_neg (by omega)]
  · rw [if_neg hlt]
    exact groupByLabel_count _ _ i

/-- C1: for both clustering passes, the returned clusters form an exact
partition of the input index set `{0, …, n-1}`: each index in range occurs
exactly once across all returned clusters (and lies in exactly one cluster),
nothing out of range ever occurs, and a call with zero keywords returns the
empty list. -/
theorem claim_C1 (sim : ℕ → ℕ → ℚ) (keywords : List String) (threshold : ℚ) :
    (keywords = [] → cluster_topics sim keywords threshold = [] ∧
      cluster_pages sim keywords threshold = []) ∧
    (∀ i, (cluster_topics sim keywords threshold).flatten.count i
        = if i < keywords.length then 1 else 0) ∧
    (∀ i, (cluster_topics sim keywords threshold).countP (fun c => decide (i ∈ c))
        = if i < keywords.length then 1 else 0) ∧
    (∀ i, (cluster_pages sim keywords threshold).flatten.count i
        = if i < keywords.length then 1 else 0) ∧
    (∀ i, (cluster_pages sim keywords threshold).countP (fun c => decide (i ∈ c))
        = if i < keywords.length then 1 else 0) := by
  have htop : ∀ i, (cluster_topics sim keywords threshold).flatten.count i
      = if i < keywords.length then 1 else 0 := by
    intro i
    unfold cluster_topics
    exact cluster_pipeline_count _ threshold keywords i
  have hpag : ∀ i, (cluster_pages sim keywords threshold).flatten.count i
      = if i < keywords.length then 1 else 0 := by
    intro i
    unfold cluster_pages
    exact cluster_pipeline_count _ threshold keywords i
  have hcountP : ∀ (cs : List (List ℕ)),
      (∀ i, cs.flatten.count i = if i < keywords.length then 1 else 0) →
      ∀ i, cs.countP (fun c => decide (i ∈ c))
        = if i < keywords.length then 1 else 0 := by
    intro cs hcs i
    have h1 : cs.flatten.count i = if i ∈ cs.flatten then 1 else 0 := by
      by_cases hm : i ∈ cs.flatten
      · rw [if_pos hm, hcs i, if_pos ?_]
        by_contra hin
        have := hcs i
        rw [if_neg hin] at this
        exact absurd this (by
          have := List.count_pos_iff.mpr hm
          omega)
      · rw [if_neg hm]
        exact List.count_eq_zero_of_not_mem hm
    rw [countP_of_flatten_count cs i h1, hcs i]
  refine ⟨?_, htop, hcountP _ htop, hpag, hcountP _ hpag⟩
  intro hkw
  subst hkw
  constructor
  · rfl
  · rfl

/-- C9: for at least two keywords, the distance matrix fed to the
agglomerative clusterer by the fine/page-group pass is 1 minus the elementwise
average `(semantic + lexical) / 2` of the cosine-similarity matrix and the
token-overlap (Jaccard) matrix, while the coarse topic pass feeds 1 minus the
semantic similarity alone. -/
theorem claim_C9 (sim : ℕ → ℕ → ℚ) (keywords : List String) (threshold : ℚ)
    (h2 : 2 ≤ keywords.length) :
    cluster_pages sim keywords threshold
      = cluster_core
          (fun i j => 1 - (sim i j + token_overlap keywords i j) / 2)
          threshold keywords.length ∧
    cluster_topics sim keywords threshold
      = cluster_core (fun i j => 1 - sim i j) threshold keywords.length := by
  constructor
  · unfold cluster_pages combined_similarity
    rw [if_neg (by omega)]
  · unfold cluster_topics
    rw [if_neg (by omega)]

/-- Witness for C9 at two concrete keywords and a constant semantic matrix. -/
theorem claim_C9_witness :
    2 ≤ (["crm pricing", "crm software"] : List String).length ∧
    (cluster_pages (fun _ _ => 1/2) ["crm pricing", "crm software"] (3/10)
      = cluster_core
          (fun i j => 1 - ((fun _ _ => (1/2 : ℚ)) i j
            + token_overlap ["crm pricing", "crm software"] i j) / 2)
          (3/10) (["crm pricing", "crm software"] : List String).length ∧
    cluster_topics (fun _ _ => 1/2) ["crm pricing", "crm software"] (3/10)
      = cluster_core (fun i j => 1 - (fun _ _ => (1/2 : ℚ)) i j)
          (3/10) (["crm pricing", "crm software"] : List String).length) :=
  ⟨by decide, claim_C9 (fun _ _ => 1/2) ["crm pricing", "crm software"] (3/10)
    (by decide)⟩

theorem mem_pairList (m p q : ℕ) : (p, q) ∈ pairList m ↔ p < q ∧ q < m := by
  unfold pairList
  constructor
  · intro h
    rcases List.mem_flatMap.mp h with ⟨a, _, hmem⟩
    rcases List.mem_map.mp hmem with ⟨b, hb, heq⟩
    have hfb := List.mem_filter.mp hb
    have hbm := List.mem_range.mp hfb.1
    have hab : a < b := of_decide_eq_true hfb.2
    cases heq
    exact ⟨hab, hbm⟩
  · rintro ⟨hpq, hqm⟩
    refine List.mem_flatMap.mpr ⟨p, List.mem_range.mpr (lt_trans hpq hqm), ?_⟩
    refine List.mem_map.mpr ⟨q, ?_, rfl⟩
    exact List.mem_filter.mpr ⟨List.mem_range.mpr hqm, decide_eq_true hpq⟩

theorem bestPair_foldl_aux (dist : ℕ → ℕ → ℚ) (cs : List (List ℕ))
    (P : ℕ → ℕ → Prop) (l : List (ℕ × ℕ)) (acc : Option (ℕ × ℕ × ℚ))
    (hacc : ∀ p q v, acc = some (p, q, v) → P p q)
    (hl : ∀ pq ∈ l, P pq.1 pq.2) :
    ∀ p q v,
      l.foldl (fun acc pq =>
        let v := linkage dist (cs.getD pq.1 []) (cs.getD pq.2 [])
        match acc with
        | none => some (pq.1, pq.2, v)
        | some best => if v < best.2.2 then some (pq.1, pq.2, v) else some best)
        acc = some (p, q, v) → P p q := by
  induction l generalizing acc with
  | nil =>
      intro p q v h
      exact hacc p q v h
  | cons x t ih =>
      intro p q v h
      rw [List.foldl_cons] at h
      refine ih _ ?_ (fun pq hpq => hl pq (List.mem_cons_of_mem x hpq)) p q v h
      intro p' q' v' hacc'
      rcases hx : acc with _ | best
      · rw [hx] at hacc'
        simp only at hacc'
        cases hacc'
        exact hl x (List.mem_cons_self x t)
      · rw [hx] at hacc'
        simp only at hacc'
        by_cases hv : linkage dist (cs.getD x.1 []) (cs.getD x.2 []) < best.2.2
      
        · rw [if_pos hv] at hacc'
          cases hacc'
          exact hl x (List.mem_cons_self x t)
        · rw [if_neg hv] at hacc'
          cases hacc'
          exact hacc p' q' v' (by rw [hx])

theorem bestPair_bounds (dist : ℕ → ℕ → ℚ) (cs : List (List ℕ)) (p q : ℕ) (v : ℚ)
    (h : bestPair dist cs = some (p, q, v)) : p < q ∧ q < cs.length := by
  unfold bestPair at h
  refine bestPair_foldl_aux dist cs (fun a b => a < b ∧ b < cs.length)
    (pairList cs.length) none (fun _ _ _ hc => by cases hc) ?_ p q v h
  intro pq hpq
  exact (mem_pairList cs.length pq.1 pq.2).mp hpq

theorem length_mergeStep (p q : ℕ) (cs : List (List ℕ)) (hpq : p < q)
    (hq : q < cs.length) : (mergeStep p q cs).length = cs.length - 1 := by
  have h1 : (cs.eraseIdx q).length = cs.length - 1 := List.length_eraseIdx_of_lt hq
  have hp : p < (cs.eraseIdx q).length := by omega
  unfold mergeStep
  simp only [List.length_cons]
  rw [List.length_eraseIdx_of_lt hp, h1]
  omega

theorem flatten_eraseIdx_perm (cs : List (List ℕ)) (q : ℕ) (hq : q < cs.length) :
    cs.flatten ~ cs.getD q [] ++ (cs.eraseIdx q).flatten := by
  induction cs generalizing q with
  | nil => simp at hq
  | cons c rest ih =>
      cases q with
      | zero =>
          simp only [List.flatten_cons, List.eraseIdx_cons_zero, List.getD_cons_zero]
          exact List.Perm.refl _
      | succ q' =>
          have hq' : q' < rest.length := by
            simp only [List.length_cons] at hq
            omega
          simp only [List.flatten_cons, List.eraseIdx_cons_succ, List.getD_cons_succ]
          calc c ++ rest.flatten
              ~ c ++ (rest.getD q' [] ++ (rest.eraseIdx q').flatten) :=
                (ih q' hq').append_left c
            _ ~ rest.getD q' [] ++ (c ++ (rest.eraseIdx q').flatten) :=
                List.perm_append_comm_assoc c (rest.getD q' []) _
            _ = rest.getD q' [] ++ (c :: rest.eraseIdx q').flatten := by
                rw [List.flatten_cons]

theorem flatten_mergeStep_perm (p q : ℕ) (cs : List (List ℕ)) (hpq : p < q)
    (hq : q < cs.length) : (mergeStep p q cs).flatten ~ cs.flatten := by
  have h1 : (cs.eraseIdx q).length = cs.length - 1 := List.length_eraseIdx_of_lt hq
  have hpE : p < (cs.eraseIdx q).length := by omega
  have hgetp : (cs.eraseIdx q).getD p [] = cs.getD p [] := by
    rw [List.getD_eq_getElem?_getD, List.getD_eq_getElem?_getD,
      List.getElem?_eraseIdx_of_lt cs q p hpq]
  calc (mergeStep p q cs).flatten
      = (cs.getD p [] ++ cs.getD q []) ++ ((cs.eraseIdx q).eraseIdx p).flatten := by
        rw [mergeStep, List.flatten_cons]
    _ = cs.getD p [] ++ (cs.getD q [] ++ ((cs.eraseIdx q).eraseIdx p).flatten) := by
        rw [List.append_assoc]
    _ ~ cs.getD q [] ++ (cs.getD p [] ++ ((cs.eraseIdx q).eraseIdx p).flatten) :=
        List.perm_append_comm_assoc _ _ _
    _ ~ cs.getD q [] ++ (cs.eraseIdx q).flatten := by
        refine List.Perm.append_left _ ?_
        rw [← hgetp]
        exact (flatten_eraseIdx_perm (cs.eraseIdx q) p hpE).symm
    _ ~ cs.flatten := (flatten_eraseIdx_perm cs q hq).symm

theorem mergeStep_ne_nil (p q : ℕ) (cs : List (List ℕ)) (hpq : p < q)
    (hq : q < cs.length) (hne : ∀ c ∈ cs, c ≠ []) :
    ∀ c ∈ mergeStep p q cs, c ≠ [] := by
  intro c hc
  unfold mergeStep at hc
  rcases List.mem_cons.mp hc with rfl | hc
  · have hp : p < cs.length := lt_trans hpq hq
    have hA : cs.getD p [] ∈ cs := by
      rw [List.getD_eq_getElem?_getD, List.getElem?_eq_getElem hp]
      exact List.get_mem cs p hp
    intro hnil
    exact hne _ hA (List.append_eq_nil.mp hnil).1
  · refine hne c ?_
    exact (List.eraseIdx_sublist cs q).subset ((List.eraseIdx_sublist _ p).subset hc)

theorem aggloFuel_flatten_perm (dist : ℕ → ℕ → ℚ) (d : ℚ) (fuel : ℕ)
    (cs : List (List ℕ)) : (aggloFuel dist d fuel cs).flatten ~ cs.flatten := by
  induction fuel generalizing cs with
  | zero => exact List.Perm.refl _
  | succ f ih =>
      rcases hbp : bestPair dist cs with _ | pqv
      · simp only [aggloFuel, hbp]
        exact List.Perm.refl _
      · rcases pqv with ⟨p, q, v⟩
        rcases bestPair_bounds dist cs p q v hbp with ⟨hpq, hq⟩
        simp only [aggloFuel, hbp]
        by_cases hv : v < d
        · rw [if_pos hv]
          exact (ih (mergeStep p q cs)).trans (flatten_mergeStep_perm p q cs hpq hq)
        · rw [if_neg hv]

theorem aggloFuel_ne_nil (dist : ℕ → ℕ → ℚ) (d : ℚ) (fuel : ℕ)
    (cs : List (List ℕ)) (hne : ∀ c ∈ cs, c ≠ []) :
    ∀ c ∈ aggloFuel dist d fuel cs, c ≠ [] := by
  induction fuel generalizing cs with
  | zero => exact hne
  | succ f ih =>
      rcases hbp : bestPair dist cs with _ | pqv
      · simp only [aggloFuel, hbp]
        exact hne
      · rcases pqv with ⟨p, q, v⟩
        rcases bestPair_bounds dist cs p q v hbp with ⟨hpq, hq⟩
        simp only [aggloFuel, hbp]
        by_cases hv : v < d
        · rw [if_pos hv]
          exact ih (mergeStep p q cs) (mergeStep_ne_nil p q cs hpq hq hne)
        · rw [if_neg hv]
          exact hne

theorem aggloFuel_length_le (dist : ℕ → ℕ → ℚ) (d : ℚ) (fuel : ℕ)
    (cs : List (List ℕ)) : (aggloFuel dist d fuel cs).length ≤ cs.length := by
  induction fuel generalizing cs with
  | zero => exact le_refl _
  | succ f ih =>
      rcases hbp : bestPair dist cs with _ | pqv
      · simp only [aggloFuel, hbp]
        exact le_refl _
      · rcases pqv with ⟨p, q, v⟩
        rcases bestPair_bounds dist cs p q v hbp with ⟨hpq, hq⟩
        simp only [aggloFuel, hbp]
        by_cases hv : v < d
        · rw [if_pos hv]
          have h1 := ih (mergeStep p q cs)
          rw [length_mergeStep p q cs hpq hq] at h1
          omega
        · rw [if_neg hv]

theorem aggloFuel_length_mono (dist : ℕ → ℕ → ℚ) (d1 d2 : ℚ) (hd : d2 ≤ d1)
    (fuel : ℕ) (cs : List (List ℕ)) :
    (aggloFuel dist d1 fuel cs).length ≤ (aggloFuel dist d2 fuel cs).length := by
  induction fuel generalizing cs with
  | zero => exact le_refl _
  | succ f ih =>
      rcases hbp : bestPair dist cs with _ | pqv
      · simp only [aggloFuel, hbp]
        exact le_refl _
      · rcases pqv with ⟨p, q, v⟩
        rcases bestPair_bounds dist cs p q v hbp with ⟨hpq, hq⟩
        simp only [aggloFuel, hbp]
        by_cases hv2 : v < d2
        · rw [if_pos hv2, if_pos (lt_of_lt_of_le hv2 hd)]
          exact ih (mergeStep p q cs)
        · rw [if_neg hv2]
          by_cases hv1 : v < d1
          · rw [if_pos hv1]
            have h1 := aggloFuel_length_le dist d1 f (mergeStep p q cs)
            rw [length_mergeStep p q cs hpq hq] at h1
            omega
          · rw [if_neg hv1]

theorem flatten_map_singleton (l : List ℕ) : (l.map (fun i => [i])).flatten = l := by
  induction l with
  | nil => rfl
  | cons x t ih => simp [ih]

theorem flatten_initClusters (n : ℕ) : (initClusters n).flatten = List.range n :=
  flatten_map_singleton (List.range n)

theorem initClusters_ne_nil (n : ℕ) : ∀ c ∈ initClusters n, c ≠ [] := by
  intro c hc
  rcases List.mem_map.mp hc with ⟨i, _, rfl⟩
  simp

theorem dedup_labels_length (cs : List (List ℕ)) (n : ℕ)
    (hperm : List.Perm cs.flatten (List.range n)) (hne : ∀ c ∈ cs, c ≠ []) :
    (firstDedup ((List.range n).map
      (fun i => cs.findIdx (fun c => decide (i ∈ c))))).length = cs.length := by
  have hnd : cs.flatten.Nodup := hperm.nodup_iff.mpr (List.nodup_range n)
  have hdisj := (List.nodup_flatten.mp hnd).2
  have hmemD : ∀ k, (k ∈ firstDedup ((List.range n).map
      (fun i => cs.findIdx (fun c => decide (i ∈ c)))) ↔ k < cs.length) := by
    intro k
    rw [mem_firstDedup]
    constructor
    · intro hk
      rcases List.mem_map.mp hk with ⟨i, hi, rfl⟩
      have hin : i ∈ cs.flatten := hperm.mem_iff.mpr hi
      rcases List.mem_flatten.mp hin with ⟨c, hc, hic⟩
      exact List.findIdx_lt_length_of_exists ⟨c, hc, decide_eq_true hic⟩
    · intro hk
      have hcmem : cs.get ⟨k, hk⟩ ∈ cs := List.get_mem cs k hk
      rcases List.exists_mem_of_ne_nil _ (hne _ hcmem) with ⟨i, hi⟩
      have hiflat : i ∈ cs.flatten := List.mem_flatten.mpr ⟨_, hcmem, hi⟩
      have hin : i < n := List.mem_range.mp (hperm.mem_iff.mp hiflat)
      have hfound : cs.findIdx (fun c => decide (i ∈ c)) < cs.length :=
        List.findIdx_lt_length_of_exists ⟨_, hcmem, decide_eq_true hi⟩
      have hik : i ∈ cs[k] := by
        rw [List.get_eq_getElem] at hi
        exact hi
      have heqk : cs.findIdx (fun c => decide (i ∈ c)) = k := by
        rcases lt_trichotomy (cs.findIdx (fun c => decide (i ∈ c))) k with hlt | heq | hgt
        · exfalso
          have hdis := List.pairwise_iff_getElem.mp hdisj _ k hfound hk hlt
          have hsat : i ∈ cs[cs.findIdx (fun c => decide (i ∈ c))] :=
            of_decide_eq_true (@List.findIdx_getElem _ _ cs hfound)
          exact hdis hsat hik
        · exact heq
        · exfalso
          have hfalse := List.not_of_lt_findIdx hgt
          rw [decide_eq_false_iff_not] at hfalse
          exact hfalse hik
      rw [← heqk]
      exact List.mem_map.mpr ⟨i, List.mem_range.mpr hin, rfl⟩
  have hfin : (firstDedup ((List.range n).map
      (fun i => cs.findIdx (fun c => decide (i ∈ c))))).toFinset
      = Finset.range cs.length := by
    ext k
    rw [List.mem_toFinset, hmemD k, Finset.mem_range]
  have hcard := List.toFinset_card_of_nodup (nodup_firstDedup
    ((List.range n).map (fun i => cs.findIdx (fun c => decide (i ∈ c)))))
  rw [hfin, Finset.card_range] at hcard
  exact hcard.symm

/-- The number of label groups returned by the pipeline equals the number of
clusters produced by the agglomerative loop. -/
theorem cluster_core_length (dist : ℕ → ℕ → ℚ) (t : ℚ) (n : ℕ) :
    (cluster_core dist t n).length
      = (aggloFuel dist (1 - t) n (initClusters n)).length := by
  unfold cluster_core groupByLabel fit_predict
  rw [List.length_map]
  refine dedup_labels_length _ n ?_ ?_
  · have h1 := aggloFuel_flatten_perm dist (1 - t) n (initClusters n)
    rw [flatten_initClusters n] at h1
    exact h1
  · exact aggloFuel_ne_nil dist (1 - t) n (initClusters n) (initClusters_ne_nil n)

/-- C7: for a fixed keyword list and a fixed similarity matrix (either the
semantic one used by `cluster_topics` or the combined one used by
`cluster_pages`), raising the threshold never decreases the number of
returned clusters: a stricter merge criterion stops the agglomerative loop
earlier. -/
theorem claim_C7 (sim : ℕ → ℕ → ℚ) (keywords : List String) (t1 t2 : ℚ)
    (hlo1 : 0 ≤ t1) (hhi1 : t1 ≤ 1) (hlo2 : 0 ≤ t2) (hhi2 : t2 ≤ 1)
    (ht : t1 ≤ t2) :
    (cluster_topics sim keywords t1).length
      ≤ (cluster_topics sim keywords t2).length ∧
    (cluster_pages sim keywords t1).length
      ≤ (cluster_pages sim keywords t2).length := by
  have hd : 1 - t2 ≤ 1 - t1 := by linarith
  constructor
  · unfold cluster_topics
    by_cases hlen : keywords.length < 2
    · rw [if_pos hlen, if_pos hlen]
    · rw [if_neg hlen, if_neg hlen, cluster_core_length, cluster_core_length]
      exact aggloFuel_length_mono _ (1 - t1) (1 - t2) hd keywords.length _
  · unfold cluster_pages
    by_cases hlen : keywords.length < 2
    · rw [if_pos hlen, if_pos hlen]
    · rw [if_neg hlen, if_neg hlen, cluster_core_length, cluster_core_length]
      exact aggloFuel_length_mono _ (1 - t1) (1 - t2) hd keywords.length _

/-- Witness for C7 with two concrete keywords, a constant similarity matrix
and thresholds 0.3 ≤ 0.6. -/
theorem claim_C7_witness :
    ((0 : ℚ) ≤ 3/10 ∧ (3/10 : ℚ) ≤ 1 ∧ (0 : ℚ) ≤ 6/10 ∧ (6/10 : ℚ) ≤ 1 ∧
      (3/10 : ℚ) ≤ 6/10) ∧
    ((cluster_topics (fun _ _ => 1/2) ["crm pricing", "crm software"] (3/10)).length
      ≤ (cluster_topics (fun _ _ => 1/2) ["crm pricing", "crm software"] (6/10)).length ∧
    (cluster_pages (fun _ _ => 1/2) ["crm pricing", "crm software"] (3/10)).length
      ≤ (cluster_pages (fun _ _ => 1/2) ["crm pricing", "crm software"] (6/10)).length) :=
  ⟨⟨by norm_num, by norm_num, by norm_num, by norm_num, by norm_num⟩,
    claim_C7 (fun _ _ => 1/2) ["crm pricing", "crm software"] (3/10) (6/10)
      (by norm_num) (by norm_num) (by norm_num) (by norm_num) (by norm_num)⟩

/-- Witness for C1 (its first conjunct is an implication): the empty call
returns the empty list, and at three concrete keywords index 1 is covered
exactly once. -/
theorem claim_C1_witness :
    (cluster_topics (fun _ _ => 1/2) ([] : List String) (3/10) = [] ∧
     cluster_pages (fun _ _ => 1/2) ([] : List String) (3/10) = []) ∧
    (cluster_topics (fun _ _ => 1/2) ["a", "b", "c"] (3/10)).flatten.count 1
      = (if 1 < (["a", "b", "c"] : List String).length then 1 else 0) ∧
    (cluster_topics (fun _ _ => 1/2) ["a", "b", "c"] (3/10)).countP
        (fun c => decide (1 ∈ c))
      = (if 1 < (["a", "b", "c"] : List String).length then 1 else 0) ∧
    (cluster_pages (fun _ _ => 1/2) ["a", "b", "c"] (3/10)).flatten.count 1
      = (if 1 < (["a", "b", "c"] : List String).length then 1 else 0) ∧
    (cluster_pages (fun _ _ => 1/2) ["a", "b", "c"] (3/10)).countP
        (fun c => decide (1 ∈ c))
      = (if 1 < (["a", "b", "c"] : List String).length then 1 else 0) :=
  ⟨(claim_C1 (fun _ _ => 1/2) [] (3/10)).1 rfl,
    (claim_C1 (fun _ _ => 1/2) ["a", "b", "c"] (3/10)).2.1 1,
    (claim_C1 (fun _ _ => 1/2) ["a", "b", "c"] (3/10)).2.2.1 1,
    (claim_C1 (fun _ _ => 1/2) ["a", "b", "c"] (3/10)).2.2.2.1 1,
    (claim_C1 (fun _ _ => 1/2) ["a", "b", "c"] (3/10)).2.2.2.2 1⟩

/-- Python list indexing: `xs[i]` resolves negative `i` to `len(xs) + i`;
`none` models the `IndexError` raised outside `-len(xs) ≤ i < len(xs)`. -/
def pyIndex {α : Type} (xs : List α) (i : ℤ) : Option α :=
  let j := if i < 0 then i + xs.length else i
  if 0 ≤ j then xs[j.toNat]? else none

/-- A node dict of the serialized graph: keys `id`, `keyword`, `type`. -/
structure GNode where
  id : ℤ
  keyword : String
  type : String
deriving DecidableEq, Repr

/-- An edge dict of the serialized graph: keys `source`, `target`, `type`. -/
structure GEdge where
  source : ℤ
  target : ℤ
  type : String
deriving DecidableEq, Repr

/-- The `graph_data` dict returned by `build_hub_cluster_graph`. -/
structure GraphData where
  nodes : List GNode
  edges : List GEdge
deriving DecidableEq, Repr

/-- The spoke-construction loop of `build_hub_cluster_graph` over
`enumerate(page_groups)` (clustering.py lines 196-209): groups containing the
pillar are skipped; otherwise the group's first index is the representative,
the node id is `group_idx + 1`, a spoke node and a hub→spoke edge are added,
and `(node_id, representative_idx)` is appended to `spoke_nodes`.
`page_group[0]` on an empty group and `topic_keywords[representative_idx]`
out of range raise `IndexError`. -/
def buildSpokes (topic_keywords : List String) (pillar_idx : ℤ) :
    List (ℕ × List ℤ) → Except Err (List GNode × List GEdge × List (ℤ × ℤ))
  | [] => .ok ([], [], [])
  | (gi, group) :: rest =>
      if pillar_idx ∈ group then buildSpokes topic_keywords pillar_idx rest
      else
        match group.head? with
        | none => .error .indexError
        | some rep =>
            match pyIndex topic_keywords rep with
            | none => .error .indexError
            | some kw =>
                match buildSpokes topic_keywords pillar_idx rest with
                | .error e => .error e
                | .ok (ns, es, sp) =>
                    .ok (⟨(gi : ℤ) + 1, kw, "spoke"⟩ :: ns,
                         ⟨0, (gi : ℤ) + 1, "hub_to_spoke"⟩ :: es,
                         ((gi : ℤ) + 1, rep) :: sp)

/-- All ordered pairs (earlier element, later element) of a list: the
iteration space of the double loop `for i ...: for j in [i+1:] ...`. -/
def orderedPairs {α : Type} : List α → List (α × α)
  | [] => []
  | x :: rest => (rest.map (fun y => (x, y))) ++ orderedPairs rest

/-- The sibling-edge loop (clustering.py lines 211-217): for each ordered pair
of spokes, if `similarity[idx_i][idx_j] >= sibling_threshold`, add one
directed edge in each direction. -/
def siblingEdges (sim : ℤ → ℤ → ℚ) (t : ℚ) : List (ℤ × ℤ) → List GEdge
  | [] => []
  | x :: rest =>
      ((rest.filter (fun y => decide (t ≤ sim x.2 y.2))).flatMap
        (fun y => [⟨x.1, y.1, "sibling"⟩, ⟨y.1, x.1, "sibling"⟩]))
        ++ siblingEdges sim t rest

/-- `KeywordClusterer.build_hub_cluster_graph` (clustering.py lines 170-239),
with the semantic similarity matrix abstracted as `sim` (a numpy lookup by the
Python integers stored in the page groups).  The call first computes the
similarity matrix — on empty `topic_keywords`, `cosine_similarity` raises —
and then evaluates `topic_keywords[pillar_idx]`, which raises when
`pillar_idx` is outside Python's index range; both failures realize the
spec's InvalidInput and are modelled as `Err.invalidInput`.  Nodes are listed
in insertion order (hub first); edges in construction order (networkx
iterates them in a different but membership- and multiplicity-equal order). -/
def build_hub_cluster_graph (sim : ℤ → ℤ → ℚ) (topic_keywords : List String)
    (page_groups : List (List ℤ)) (pillar_idx : ℤ) (sibling_threshold : ℚ) :
    Except Err GraphData :=
  if topic_keywords.isEmpty then .error .invalidInput
  else
    match pyIndex topic_keywords pillar_idx with
    | none => .error .invalidInput
    | some hub_keyword =>
        match buildSpokes topic_keywords pillar_idx page_groups.enum with
        | .error e => .error e
        | .ok (ns, hubEdges, spoke_nodes) =>
            .ok ⟨⟨0, hub_keyword, "hub"⟩ :: ns,
                 hubEdges ++ siblingEdges sim sibling_threshold spoke_nodes⟩

theorem pyIndex_eq_none {α : Type} (xs : List α) (i : ℤ)
    (h : (xs.length : ℤ) ≤ i ∨ i < -(xs.length : ℤ)) : pyIndex xs i = none := by
  show (if 0 ≤ (if i < 0 then i + (xs.length : ℤ) else i)
    then xs[(if i < 0 then i + (xs.length : ℤ) else i).toNat]?
    else none) = none
  by_cases hi : i < 0
  · have hneg : i < -(xs.length : ℤ) := by
      rcases h with h | h
      · omega
      · exact h
    rw [if_pos hi, if_neg (by omega)]
  · have hge : (xs.length : ℤ) ≤ i := by
      rcases h with h | h
      · exact h
      · omega
    rw [if_neg hi, if_pos (by omega)]
    refine List.getElem?_eq_none ?_
    omega

theorem pyIndex_isSome_of_bounds {α : Type} (xs : List α) (i : ℤ)
    (h0 : 0 ≤ i) (hlt : i < (xs.length : ℤ)) : (pyIndex xs i).isSome = true := by
  show (if 0 ≤ (if i < 0 then i + (xs.length : ℤ) else i)
    then xs[(if i < 0 then i + (xs.length : ℤ) else i).toNat]?
    else none).isSome = true
  have hni : ¬ i < 0 := by omega
  rw [if_neg hni, if_pos h0, List.getElem?_eq_getElem (show i.toNat < xs.length by omega)]
  rfl

/-- C3: `build_hub_cluster_graph` fails with the InvalidInput error — and
returns no graph — whenever `topic_keywords` is empty or `pillar_idx` is out
of index range for `topic_keywords`; in particular for `pillar_idx = 99` on a
4-keyword topic.  The failure happens before any node or edge is built. -/
theorem claim_C3 (sim : ℤ → ℤ → ℚ) (topic_keywords : List String)
    (page_groups : List (List ℤ)) (pillar_idx : ℤ) (t : ℚ)
    (h : topic_keywords = [] ∨ (topic_keywords.length : ℤ) ≤ pillar_idx ∨
      pillar_idx < -(topic_keywords.length : ℤ)) :
    build_hub_cluster_graph sim topic_keywords page_groups pillar_idx t
      = .error .invalidInput := by
  unfold build_hub_cluster_graph
  by_cases hemp : topic_keywords.isEmpty
  · rw [if_pos hemp]
  · rw [if_neg hemp]
    have hne : topic_keywords ≠ [] := by
      intro hc
      rw [hc] at hemp
      exact hemp rfl
    have hrange : (topic_keywords.length : ℤ) ≤ pillar_idx ∨
        pillar_idx < -(topic_keywords.length : ℤ) := by
      rcases h with h | h | h
      · exact absurd h hne
      · exact Or.inl h
      · exact Or.inr h
    rw [pyIndex_eq_none topic_keywords pillar_idx hrange]

/-- Witness for C3: `pillar_index = 99` on the spec's 4-keyword topic. -/
theorem claim_C3_witness :
    ((["best crm", "crm software", "crm pricing", "crm for startups"]
        : List String) = [] ∨
      (((["best crm", "crm software", "crm pricing", "crm for startups"]
        : List String).length : ℤ) ≤ 99) ∨
      ((99 : ℤ) < -((["best crm", "crm software", "crm pricing",
        "crm for startups"] : List String).length : ℤ))) ∧
    build_hub_cluster_graph (fun _ _ => 0)
        ["best crm", "crm software", "crm pricing", "crm for startups"]
        [[0, 1], [2], [3]] 99 (1/2)
      = .error .invalidInput :=
  ⟨Or.inr (Or.inl (by decide)),
    claim_C3 (fun _ _ => 0)
      ["best crm", "crm software", "crm pricing", "crm for startups"]
      [[0, 1], [2], [3]] 99 (1/2) (Or.inr (Or.inl (by decide)))⟩

theorem buildSpokes_eq (topic_keywords : List String) (pillar : ℤ)
    (l : List (ℕ × List ℤ))
    (hvalid : ∀ gg ∈ l, gg.2 ≠ [] ∧
      ∀ m ∈ gg.2, 0 ≤ m ∧ m < (topic_keywords.length : ℤ)) :
    buildSpokes topic_keywords pillar l
      = .ok ((l.filter (fun gg => decide (pillar ∉ gg.2))).map
               (fun gg => ⟨(gg.1 : ℤ) + 1,
                 (pyIndex topic_keywords (gg.2.headD 0)).getD "", "spoke"⟩),
             (l.filter (fun gg => decide (pillar ∉ gg.2))).map
               (fun gg => ⟨0, (gg.1 : ℤ) + 1, "hub_to_spoke"⟩),
             (l.filter (fun gg => decide (pillar ∉ gg.2))).map
               (fun gg => ((gg.1 : ℤ) + 1, gg.2.headD 0))) := by
  induction l with
  | nil => rfl
  | cons gg rest ih =>
      rcases gg with ⟨gi, group⟩
      have hv := hvalid (gi, group) (List.mem_cons_self _ _)
      have ihr := ih (fun x hx => hvalid x (List.mem_cons_of_mem _ hx))
      by_cases hmem : pillar ∈ group
      · have hdec : (fun gg : ℕ × List ℤ => decide (pillar ∉ gg.2)) (gi, group)
            = false := decide_eq_false (not_not_intro hmem)
        simp only [buildSpokes, if_pos hmem, List.filter_cons, hdec,
          Bool.false_eq_true, if_false]
        exact ihr
      · rcases hgr : group with _ | ⟨rep, grest⟩
        · exact absurd hgr (by
            simp only at hv
            exact hv.1)
        · subst hgr
          have hb := hv.2 rep (List.mem_cons_self _ _)
          have hsome : (pyIndex topic_keywords rep).isSome = true :=
            pyIndex_isSome_of_bounds _ rep hb.1 hb.2
          rcases hpy : pyIndex topic_keywords rep with _ | kw
          · rw [hpy] at hsome
            cases hsome
          · have hdec : (fun gg : ℕ × List ℤ => decide (pillar ∉ gg.2)) (gi, rep :: grest)
                = true := decide_eq_true hmem
            simp only [buildSpokes, if_neg hmem, List.head?, hpy, ihr,
              List.filter_cons, hdec, if_true, List.map_cons]
            simp [hpy]

theorem mem_orderedPairs {α : Type} (sp : List α) (pr : α × α)
    (h : pr ∈ orderedPairs sp) : pr.1 ∈ sp ∧ pr.2 ∈ sp := by
  induction sp with
  | nil => cases h
  | cons x rest ih =>
      rw [orderedPairs, List.mem_append] at h
      rcases h with h | h
      · rcases List.mem_map.mp h with ⟨y, hy, rfl⟩
        exact ⟨List.mem_cons_self x rest, List.mem_cons_of_mem x hy⟩
      · rcases ih h with ⟨h1, h2⟩
        exact ⟨List.mem_cons_of_mem x h1, List.mem_cons_of_mem x h2⟩

theorem siblingEdges_mem_facts (sim : ℤ → ℤ → ℚ) (t : ℚ) (sp : List (ℤ × ℤ)) :
    ∀ e ∈ siblingEdges sim t sp, e.type = "sibling" ∧
      e.source ∈ sp.map Prod.fst ∧ e.target ∈ sp.map Prod.fst := by
  induction sp with
  | nil => intro e he; cases he
  | cons x rest ih =>
      intro e he
      rw [siblingEdges, List.mem_append] at he
      rcases he with he | he
      · rcases List.mem_flatMap.mp he with ⟨y, hy, hey⟩
        have hyr : y ∈ rest := (List.mem_filter.mp hy).1
        have hys : y.1 ∈ (x :: rest).map Prod.fst :=
          List.mem_cons_of_mem _ (List.mem_map_of_mem Prod.fst hyr)
        have hxs : x.1 ∈ (x :: rest).map Prod.fst := by
          rw [List.map_cons]
          exact List.mem_cons_self _ _
        rcases List.mem_cons.mp hey with rfl | hey
        · exact ⟨rfl, hxs, hys⟩
        · rcases List.mem_singleton.mp hey with rfl
          exact ⟨rfl, hys, hxs⟩
      · rcases ih e he with ⟨h1, h2, h3⟩
        exact ⟨h1, List.mem_cons_of_mem _ h2, List.mem_cons_of_mem _ h3⟩

theorem siblingEdges_ne (sim : ℤ → ℤ → ℚ) (t : ℚ) (sp : List (ℤ × ℤ))
    (hnd : (sp.map Prod.fst).Nodup) :
    ∀ e ∈ siblingEdges sim t sp, e.source ≠ e.target := by
  induction sp with
  | nil => intro e he; cases he
  | cons x rest ih =>
      rw [List.map_cons] at hnd
      rcases List.nodup_cons.mp hnd with ⟨hx, hrest⟩
      intro e he
      rw [siblingEdges, List.mem_append] at he
      rcases he with he | he
      · rcases List.mem_flatMap.mp he with ⟨y, hy, hey⟩
        have hyr : y ∈ rest := (List.mem_filter.mp hy).1
        have hne : x.1 ≠ y.1 := by
          intro hc
          exact hx (hc ▸ List.mem_map_of_mem Prod.fst hyr)
        rcases List.mem_cons.mp hey with rfl | hey
        · exact hne
        · rcases List.mem_singleton.mp hey with rfl
          exact hne.symm
      · exact ih hrest e he

theorem siblingEdges_mem_iff (sim : ℤ → ℤ → ℚ) (t : ℚ) (sp : List (ℤ × ℤ))
    (e : GEdge) :
    e ∈ siblingEdges sim t sp ↔ ∃ pq ∈ orderedPairs sp,
      t ≤ sim pq.1.2 pq.2.2 ∧
      (e = ⟨pq.1.1, pq.2.1, "sibling"⟩ ∨ e = ⟨pq.2.1, pq.1.1, "sibling"⟩) := by
  induction sp with
  | nil =>
      simp [siblingEdges, orderedPairs]
  | cons x rest ih =>
      rw [siblingEdges, orderedPairs, List.mem_append]
      constructor
      · intro he
        rcases he with he | he
        · rcases List.mem_flatMap.mp he with ⟨y, hy, hey⟩
          rcases List.mem_filter.mp hy with ⟨hyr, hsim⟩
          refine ⟨(x, y), List.mem_append.mpr (Or.inl
            (List.mem_map_of_mem (fun y => (x, y)) hyr)), of_decide_eq_true hsim, ?_⟩
          rcases List.mem_cons.mp hey with rfl | hey
          · exact Or.inl rfl
          · rcases List.mem_singleton.mp hey with rfl
            exact Or.inr rfl
        · rcases ih.mp he with ⟨pq, hpq, hsim, hform⟩
          exact ⟨pq, List.mem_append.mpr (Or.inr hpq), hsim, hform⟩
      · rintro ⟨pq, hpq, hsim, hform⟩
        rcases List.mem_append.mp hpq with hpq | hpq
        · rcases List.mem_map.mp hpq with ⟨y, hyr, rfl⟩
          refine Or.inl (List.mem_flatMap.mpr ⟨y,
            List.mem_filter.mpr ⟨hyr, decide_eq_true hsim⟩, ?_⟩)
          rcases hform with rfl | rfl
          · exact List.mem_cons_self _ _
          · exact List.mem_cons_of_mem _ (List.mem_singleton.mpr rfl)
        · exact Or.inr (ih.mpr ⟨pq, hpq, hsim, hform⟩)

theorem mem_headEdges (sim : ℤ → ℤ → ℚ) (t : ℚ) (x : ℤ × ℤ)
    (l : List (ℤ × ℤ)) (e : GEdge) :
    e ∈ (l.filter (fun z => decide (t ≤ sim x.2 z.2))).flatMap
        (fun z => [⟨x.1, z.1, "sibling"⟩, ⟨z.1, x.1, "sibling"⟩]) ↔
      ∃ z ∈ l, t ≤ sim x.2 z.2 ∧
        (e = ⟨x.1, z.1, "sibling"⟩ ∨ e = ⟨z.1, x.1, "sibling"⟩) := by
  constructor
  · intro he
    rcases List.mem_flatMap.mp he with ⟨z, hz, hez⟩
    rcases List.mem_filter.mp hz with ⟨hzl, hcond⟩
    refine ⟨z, hzl, of_decide_eq_true hcond, ?_⟩
    rcases List.mem_cons.mp hez with rfl | hez
    · exact Or.inl rfl
    · rcases List.mem_singleton.mp hez with rfl
      exact Or.inr rfl
  · rintro ⟨z, hzl, hcond, hform⟩
    refine List.mem_flatMap.mpr ⟨z,
      List.mem_filter.mpr ⟨hzl, decide_eq_true hcond⟩, ?_⟩
    rcases hform with rfl | rfl
    · exact List.mem_cons_self _ _
    · exact List.mem_cons_of_mem _ (List.mem_singleton.mpr rfl)

theorem count_two (E a b : GEdge) :
    List.count E [a, b] = (if a = E then 1 else 0) + (if b = E then 1 else 0) := by
  simp only [List.count_cons, List.count_nil, beq_iff_eq]
  split_ifs <;> omega

theorem count_headEdges (sim : ℤ → ℤ → ℚ) (t : ℚ) (x : ℤ × ℤ)
    (rest : List (ℤ × ℤ)) (hx : x.1 ∉ rest.map Prod.fst)
    (hnd : (rest.map Prod.fst).Nodup) (y : ℤ × ℤ) (hy : y ∈ rest) :
    (((rest.filter (fun z => decide (t ≤ sim x.2 z.2))).flatMap
        (fun z => [⟨x.1, z.1, "sibling"⟩, ⟨z.1, x.1, "sibling"⟩])).count
        (⟨x.1, y.1, "sibling"⟩ : GEdge) = if t ≤ sim x.2 y.2 then 1 else 0) ∧
    (((rest.filter (fun z => decide (t ≤ sim x.2 z.2))).flatMap
        (fun z => [⟨x.1, z.1, "sibling"⟩, ⟨z.1, x.1, "sibling"⟩])).count
        (⟨y.1, x.1, "sibling"⟩ : GEdge) = if t ≤ sim x.2 y.2 then 1 else 0) := by
  induction rest with
  | nil => cases hy
  | cons z rest' ih =>
      rw [List.map_cons] at hnd hx
      rcases List.nodup_cons.mp hnd with ⟨hz, hnd'⟩
      have hxz : x.1 ≠ z.1 := by
        intro hc
        exact hx (hc ▸ List.mem_cons_self _ _)
      have hx' : x.1 ∉ rest'.map Prod.fst := fun hc =>
        hx (List.mem_cons_of_mem _ hc)
      have hsplit : ((z :: rest').filter
            (fun u => decide (t ≤ sim x.2 u.2))).flatMap
            (fun u => [(⟨x.1, u.1, "sibling"⟩ : GEdge), ⟨u.1, x.1, "sibling"⟩])
          = (if t ≤ sim x.2 z.2
              then [(⟨x.1, z.1, "sibling"⟩ : GEdge), ⟨z.1, x.1, "sibling"⟩]
              else [])
            ++ (rest'.filter (fun u => decide (t ≤ sim x.2 u.2))).flatMap
              (fun u => [(⟨x.1, u.1, "sibling"⟩ : GEdge), ⟨u.1, x.1, "sibling"⟩]) := by
        rw [List.filter_cons]
        by_cases hc : t ≤ sim x.2 z.2
        · rw [if_pos (decide_eq_true hc), if_pos hc, List.flatMap_cons]
        · rw [if_neg (by simp [hc]), if_neg hc, List.nil_append]
      rcases List.mem_cons.mp hy with rfl | hy'
      · -- y is the head element of the remaining spokes
        have hnotail1 : (⟨x.1, y.1, "sibling"⟩ : GEdge)
            ∉ (rest'.filter (fun u => decide (t ≤ sim x.2 u.2))).flatMap
              (fun u => [(⟨x.1, u.1, "sibling"⟩ : GEdge), ⟨u.1, x.1, "sibling"⟩]) := by
          intro hmem
          rcases (mem_headEdges sim t x rest' _).mp hmem with ⟨u, hu, _, hform⟩
          have huid : u.1 ∈ rest'.map Prod.fst := List.mem_map_of_mem Prod.fst hu
          rcases hform with heq | heq
          · simp only [GEdge.mk.injEq] at heq
            exact hz (heq.2.1 ▸ huid)
          · simp only [GEdge.mk.injEq] at heq
            exact hx' (heq.1 ▸ huid)
        have hnotail2 : (⟨y.1, x.1, "sibling"⟩ : GEdge)
            ∉ (rest'.filter (fun u => decide (t ≤ sim x.2 u.2))).flatMap
              (fun u => [(⟨x.1, u.1, "sibling"⟩ : GEdge), ⟨u.1, x.1, "sibling"⟩]) := by
          intro hmem
          rcases (mem_headEdges sim t x rest' _).mp hmem with ⟨u, hu, _, hform⟩
          have huid : u.1 ∈ rest'.map Prod.fst := List.mem_map_of_mem Prod.fst hu
          rcases hform with heq | heq
          · simp only [GEdge.mk.injEq] at heq
            exact hx' (heq.2.1 ▸ huid)
          · simp only [GEdge.mk.injEq] at heq
            exact hz (heq.1 ▸ huid)
        rw [hsplit]
        constructor
        · rw [List.count_append,
            List.count_eq_zero_of_not_mem hnotail1]
          by_cases hc : t ≤ sim x.2 y.2
          · rw [if_pos hc, if_pos hc, count_two, if_pos rfl, if_neg (by
              intro hcontra
              rw [GEdge.mk.injEq] at hcontra
              rcases hcontra with ⟨h1, h2, _⟩
              omega)]
          · rw [if_neg hc, if_neg hc, List.count_nil]
        · rw [List.count_append,
            List.count_eq_zero_of_not_mem hnotail2]
          by_cases hc : t ≤ sim x.2 y.2
          · rw [if_pos hc, if_pos hc, count_two, if_neg (by
              intro hcontra
              rw [GEdge.mk.injEq] at hcontra
              rcases hcontra with ⟨h1, h2, _⟩
              omega), if_pos rfl]
          · rw [if_neg hc, if_neg hc, List.count_nil]
      · -- y lies further down; the head contributes nothing
        have hzy : z.1 ≠ y.1 := by
          intro hc
          exact hz (hc ▸ List.mem_map_of_mem Prod.fst hy')
      
        have hhead1 : ((if t ≤ sim x.2 z.2
              then [(⟨x.1, z.1, "sibling"⟩ : GEdge), ⟨z.1, x.1, "sibling"⟩]
              else []) : List GEdge).count ⟨x.1, y.1, "sibling"⟩ = 0 := by
          by_cases hc : t ≤ sim x.2 z.2
          · rw [if_pos hc, count_two, if_neg (by
              intro hcontra
              rw [GEdge.mk.injEq] at hcontra
              rcases hcontra with ⟨h1, h2, _⟩
              omega), if_neg (by
              intro hcontra
              rw [GEdge.mk.injEq] at hcontra
              rcases hcontra with ⟨h1, h2, _⟩
              omega)]
          · rw [if_neg hc, List.count_nil]
        have hhead2 : ((if t ≤ sim x.2 z.2
              then [(⟨x.1, z.1, "sibling"⟩ : GEdge), ⟨z.1, x.1, "sibling"⟩]
              else []) : List GEdge).count ⟨y.1, x.1, "sibling"⟩ = 0 := by
          by_cases hc : t ≤ sim x.2 z.2
          · rw [if_pos hc, count_two, if_neg (by
              intro hcontra
              rw [GEdge.mk.injEq] at hcontra
              rcases hcontra with ⟨h1, h2, _⟩
              omega), if_neg (by
              intro hcontra
              rw [GEdge.mk.injEq] at hcontra
              rcases hcontra with ⟨h1, h2, _⟩
              omega)]
          · rw [if_neg hc, List.count_nil]
        rcases ih hx' hnd' hy' with ⟨ih1, ih2⟩
        rw [hsplit]
        constructor
        · rw [List.count_append, hhead1, ih1, Nat.zero_add]
        · rw [List.count_append, hhead2, ih2, Nat.zero_add]


theorem siblingEdges_count (sim : ℤ → ℤ → ℚ) (t : ℚ) (sp : List (ℤ × ℤ))
    (hnd : (sp.map Prod.fst).Nodup) :
    ∀ pq ∈ orderedPairs sp,
      ((siblingEdges sim t sp).count ⟨pq.1.1, pq.2.1, "sibling"⟩
        = if t ≤ sim pq.1.2 pq.2.2 then 1 else 0) ∧
      ((siblingEdges sim t sp).count ⟨pq.2.1, pq.1.1, "sibling"⟩
        = if t ≤ sim pq.1.2 pq.2.2 then 1 else 0) := by
  induction sp with
  | nil =>
      intro pq hpq
      cases hpq
  | cons x rest ih =>
      rw [List.map_cons] at hnd
      rcases List.nodup_cons.mp hnd with ⟨hx, hnd'⟩
      intro pq hpq
      rw [orderedPairs, List.mem_append] at hpq
      rw [siblingEdges]
      rcases hpq with hpq | hpq
      · rcases List.mem_map.mp hpq with ⟨y, hy, rfl⟩
        have hrec1 : (siblingEdges sim t rest).count ⟨x.1, y.1, "sibling"⟩ = 0 := by
          refine List.count_eq_zero_of_not_mem (fun hmem => ?_)
          rcases siblingEdges_mem_facts sim t rest _ hmem with ⟨_, hs, _⟩
          exact hx hs
        have hrec2 : (siblingEdges sim t rest).count ⟨y.1, x.1, "sibling"⟩ = 0 := by
          refine List.count_eq_zero_of_not_mem (fun hmem => ?_)
          rcases siblingEdges_mem_facts sim t rest _ hmem with ⟨_, _, ht2⟩
          exact hx ht2
        rcases count_headEdges sim t x rest hx hnd' y hy with ⟨hh1, hh2⟩
        constructor
        · rw [List.count_append, hh1, hrec1]
          exact Nat.add_zero _
        · rw [List.count_append, hh2, hrec2]
          exact Nat.add_zero _
      · rcases mem_orderedPairs rest pq hpq with ⟨hp1, hp2⟩
        have hid1 : pq.1.1 ∈ rest.map Prod.fst := List.mem_map_of_mem Prod.fst hp1
        have hid2 : pq.2.1 ∈ rest.map Prod.fst := List.mem_map_of_mem Prod.fst hp2
        have hhead1 : (((rest.filter (fun z => decide (t ≤ sim x.2 z.2))).flatMap
            (fun z => [(⟨x.1, z.1, "sibling"⟩ : GEdge), ⟨z.1, x.1, "sibling"⟩])).count
            (⟨pq.1.1, pq.2.1, "sibling"⟩ : GEdge)) = 0 := by
          refine List.count_eq_zero_of_not_mem (fun hmem => ?_)
          rcases (mem_headEdges sim t x rest _).mp hmem with ⟨u, _, _, hform⟩
          rcases hform with heq | heq
          · rw [GEdge.mk.injEq] at heq
            exact hx (heq.1 ▸ hid1)
          · rw [GEdge.mk.injEq] at heq
            exact hx (heq.2.1 ▸ hid2)
        have hhead2 : (((rest.filter (fun z => decide (t ≤ sim x.2 z.2))).flatMap
            (fun z => [(⟨x.1, z.1, "sibling"⟩ : GEdge), ⟨z.1, x.1, "sibling"⟩])).count
            (⟨pq.2.1, pq.1.1, "sibling"⟩ : GEdge)) = 0 := by
          refine List.count_eq_zero_of_not_mem (fun hmem => ?_)
          rcases (mem_headEdges sim t x rest _).mp hmem with ⟨u, _, _, hform⟩
          rcases hform with heq | heq
          · rw [GEdge.mk.injEq] at heq
            exact hx (heq.1 ▸ hid2)
          · rw [GEdge.mk.injEq] at heq
            exact hx (heq.2.1 ▸ hid1)
        rcases ih hnd' pq hpq with ⟨ih1, ih2⟩
        constructor
        · rw [List.count_append, hhead1, ih1, Nat.zero_add]
        · rw [List.count_append, hhead2, ih2, Nat.zero_add]

theorem count_hubEdges (kept : List (ℕ × List ℤ))
    (hnd : (kept.map Prod.fst).Nodup) (gg : ℕ × List ℤ) (hgg : gg ∈ kept) :
    ((kept.map (fun hh => (⟨0, (hh.1 : ℤ) + 1, "hub_to_spoke"⟩ : GEdge))).count
      ⟨0, (gg.1 : ℤ) + 1, "hub_to_spoke"⟩) = 1 := by
  induction kept with
  | nil => cases hgg
  | cons h t ih =>
      rw [List.map_cons] at hnd
      rcases List.nodup_cons.mp hnd with ⟨hh, hnd'⟩
      rw [List.map_cons, List.count_cons]
      rcases List.mem_cons.mp hgg with rfl | hgg'
      · have hnotail : (⟨0, (gg.1 : ℤ) + 1, "hub_to_spoke"⟩ : GEdge)
            ∉ t.map (fun hh => (⟨0, (hh.1 : ℤ) + 1, "hub_to_spoke"⟩ : GEdge)) := by
          intro hmem
          rcases List.mem_map.mp hmem with ⟨u, hu, heq⟩
          rw [GEdge.mk.injEq] at heq
          have hid : u.1 = gg.1 := by
            have h21 := heq.2.1
            omega
          exact hh (hid ▸ List.mem_map_of_mem Prod.fst hu)
        rw [List.count_eq_zero_of_not_mem hnotail]
        simp
      · have hne2 : h.1 ≠ gg.1 := fun hc =>
          hh (hc ▸ List.mem_map_of_mem Prod.fst hgg')
        rw [ih hnd' hgg']
        have hcond : ¬ ((⟨0, (gg.1 : ℤ) + 1, "hub_to_spoke"⟩ : GEdge)
            = ⟨0, (h.1 : ℤ) + 1, "hub_to_spoke"⟩) := by
          intro hc
          rw [GEdge.mk.injEq] at hc
          have h21 := hc.2.1
          omega
        simp [hcond, hne2]

theorem count_hub_in_sibling (sim : ℤ → ℤ → ℚ) (t : ℚ) (sp : List (ℤ × ℤ))
    (a b : ℤ) : (siblingEdges sim t sp).count ⟨a, b, "hub_to_spoke"⟩ = 0 := by
  refine List.count_eq_zero_of_not_mem (fun hmem => ?_)
  have htype := (siblingEdges_mem_facts sim t sp _ hmem).1
  have hne : ("hub_to_spoke" : String) ≠ "sibling" := by decide
  exact hne htype

theorem count_sibling_in_hub (kept : List (ℕ × List ℤ)) (a b : ℤ) :
    ((kept.map (fun hh => (⟨0, (hh.1 : ℤ) + 1, "hub_to_spoke"⟩ : GEdge))).count
      ⟨a, b, "sibling"⟩) = 0 := by
  refine List.count_eq_zero_of_not_mem (fun hmem => ?_)
  rcases List.mem_map.mp hmem with ⟨u, _, heq⟩
  rw [GEdge.mk.injEq] at heq
  exact absurd heq.2.2 (by decide)

/-- The page groups that do not contain the pillar, with their positions in
`enumerate(page_groups)` (the groups the loop does not skip). -/
def keptGroups (page_groups : List (List ℤ)) (pillar_idx : ℤ) :
    List (ℕ × List ℤ) :=
  (page_groups.enum).filter (fun gg => decide (pillar_idx ∉ gg.2))

/-- The `(node_id, representative_idx)` pairs accumulated in `spoke_nodes`. -/
def spokeReps (page_groups : List (List ℤ)) (pillar_idx : ℤ) : List (ℤ × ℤ) :=
  (keptGroups page_groups pillar_idx).map
    (fun gg => ((gg.1 : ℤ) + 1, gg.2.headD 0))

/-- Spec-side description of the hub-cluster graph (spec §4.5), following the
spec's words: node 0 is the hub labeled with the keyword at `pillar_idx`;
exactly one spoke node per page group not containing the pillar, labeled with
the keyword at the group's first index, each with exactly one directed
hub→spoke edge; exactly two directed sibling edges for every spoke pair at or
above `sibling_threshold` and none below it; no other edges, no self-loops,
and no edges into the hub. -/
def HubGraphSpec (sim : ℤ → ℤ → ℚ) (topic_keywords : List String)
    (page_groups : List (List ℤ)) (pillar_idx : ℤ) (t : ℚ)
    (G : GraphData) : Prop :=
  (G.nodes = ⟨0, (pyIndex topic_keywords pillar_idx).getD "", "hub"⟩ ::
      (keptGroups page_groups pillar_idx).map (fun gg =>
        ⟨(gg.1 : ℤ) + 1,
          (pyIndex topic_keywords (gg.2.headD 0)).getD "", "spoke"⟩)) ∧
  (∀ pr ∈ spokeReps page_groups pillar_idx,
      G.edges.count ⟨0, pr.1, "hub_to_spoke"⟩ = 1) ∧
  (∀ pq ∈ orderedPairs (spokeReps page_groups pillar_idx),
      (t ≤ sim pq.1.2 pq.2.2 →
        G.edges.count ⟨pq.1.1, pq.2.1, "sibling"⟩ = 1 ∧
        G.edges.count ⟨pq.2.1, pq.1.1, "sibling"⟩ = 1) ∧
      (¬ t ≤ sim pq.1.2 pq.2.2 →
        G.edges.count ⟨pq.1.1, pq.2.1, "sibling"⟩ = 0 ∧
        G.edges.count ⟨pq.2.1, pq.1.1, "sibling"⟩ = 0)) ∧
  (∀ e ∈ G.edges,
    (e.type = "hub_to_spoke" ∧ e.source = 0 ∧
      ∃ pr ∈ spokeReps page_groups pillar_idx, e.target = pr.1) ∨
    (e.type = "sibling" ∧ ∃ pq ∈ orderedPairs (spokeReps page_groups pillar_idx),
      t ≤ sim pq.1.2 pq.2.2 ∧
      ((e.source = pq.1.1 ∧ e.target = pq.2.1) ∨
       (e.source = pq.2.1 ∧ e.target = pq.1.1)))) ∧
  (∀ e ∈ G.edges, e.source ≠ e.target) ∧
  (∀ e ∈ G.edges, e.target ≠ 0)

/-- C4: on valid input (pillar in range, nonempty groups of in-range indices),
`build_hub_cluster_graph` returns a graph satisfying `HubGraphSpec`. -/
theorem claim_C4 (sim : ℤ → ℤ → ℚ) (topic_keywords : List String)
    (page_groups : List (List ℤ)) (pillar_idx : ℤ) (t : ℚ)
    (hpil : 0 ≤ pillar_idx ∧ pillar_idx < (topic_keywords.length : ℤ))
    (hgroups : ∀ g ∈ page_groups, g ≠ [] ∧
      ∀ m ∈ g, 0 ≤ m ∧ m < (topic_keywords.length : ℤ)) :
    ∃ G, build_hub_cluster_graph sim topic_keywords page_groups pillar_idx t
        = .ok G ∧
      HubGraphSpec sim topic_keywords page_groups pillar_idx t G := by
  have hn : 0 < topic_keywords.length := by omega
  have hnemp : ¬ topic_keywords.isEmpty = true := by
    rw [List.isEmpty_iff]
    intro hc
    rw [hc] at hn
    simp at hn
  have hsome := pyIndex_isSome_of_bounds topic_keywords pillar_idx hpil.1 hpil.2
  rcases hpy : pyIndex topic_keywords pillar_idx with _ | hubkw
  · rw [hpy] at hsome
    cases hsome
  have hvalid : ∀ gg ∈ page_groups.enum, gg.2 ≠ [] ∧
      ∀ m ∈ gg.2, 0 ≤ m ∧ m < (topic_keywords.length : ℤ) := by
    intro gg hgg
    exact hgroups gg.2 (List.snd_mem_of_mem_enumFrom hgg)
  have hbs := buildSpokes_eq topic_keywords pillar_idx page_groups.enum hvalid
  have hknd : ((keptGroups page_groups pillar_idx).map Prod.fst).Nodup := by
    have hsub : keptGroups page_groups pillar_idx <+ page_groups.enum :=
      List.filter_sublist _
    have hsub2 := hsub.map Prod.fst
    rw [List.enum_map_fst] at hsub2
    exact hsub2.nodup (List.nodup_range _)
  have hspfst : (spokeReps page_groups pillar_idx).map Prod.fst
      = (keptGroups page_groups pillar_idx).map (fun gg => (gg.1 : ℤ) + 1) := by
    unfold spokeReps
    rw [List.map_map]
    rfl
  have hspnd : ((spokeReps page_groups pillar_idx).map Prod.fst).Nodup := by
    rw [hspfst]
    have hmm : (keptGroups page_groups pillar_idx).map (fun gg => (gg.1 : ℤ) + 1)
        = ((keptGroups page_groups pillar_idx).map Prod.fst).map
          (fun g : ℕ => (g : ℤ) + 1) := by
      rw [List.map_map]
      rfl
    rw [hmm]
    exact hknd.map (fun a b hab => by omega)
  have hids1 : ∀ z ∈ (spokeReps page_groups pillar_idx).map Prod.fst, 1 ≤ z := by
    intro z hz
    rw [hspfst] at hz
    rcases List.mem_map.mp hz with ⟨gg, _, rfl⟩
    omega
  refine ⟨⟨⟨0, hubkw, "hub"⟩ :: (keptGroups page_groups pillar_idx).map (fun gg =>
      ⟨(gg.1 : ℤ) + 1, (pyIndex topic_keywords (gg.2.headD 0)).getD "", "spoke"⟩),
      (keptGroups page_groups pillar_idx).map
        (fun gg => ⟨0, (gg.1 : ℤ) + 1, "hub_to_spoke"⟩)
        ++ siblingEdges sim t (spokeReps page_groups pillar_idx)⟩, ?_, ?_⟩
  · unfold build_hub_cluster_graph
    rw [if_neg hnemp, hpy, hbs]
    rfl
  · refine ⟨?_, ?_, ?_, ?_, ?_, ?_⟩
    · rw [hpy]
      rfl
    · intro pr hpr
      unfold spokeReps at hpr
      rcases List.mem_map.mp hpr with ⟨gg, hgg, rfl⟩
      rw [List.count_append]
      rw [count_hubEdges (keptGroups page_groups pillar_idx) hknd gg hgg,
        count_hub_in_sibling]
    · intro pq hpq
      have hcnt := siblingEdges_count sim t (spokeReps page_groups pillar_idx)
        hspnd pq hpq
      constructor
      · intro hsim
        constructor
        · rw [List.count_append, count_sibling_in_hub, hcnt.1, if_pos hsim]
        · rw [List.count_append, count_sibling_in_hub, hcnt.2, if_pos hsim]
      · intro hsim
        constructor
        · rw [List.count_append, count_sibling_in_hub, hcnt.1, if_neg hsim]
        · rw [List.count_append, count_sibling_in_hub, hcnt.2, if_neg hsim]
    · intro e he
      rcases List.mem_append.mp he with he | he
      · left
        rcases List.mem_map.mp he with ⟨gg, hgg, rfl⟩
        refine ⟨rfl, rfl, ⟨((gg.1 : ℤ) + 1, gg.2.headD 0), ?_, rfl⟩⟩
        exact List.mem_map_of_mem _ hgg
      · right
        rcases (siblingEdges_mem_iff sim t _ e).mp he with ⟨pq, hpq, hsim, hform⟩
        refine ⟨?_, pq, hpq, hsim, ?_⟩
        · rcases hform with rfl | rfl <;> rfl
        · rcases hform with rfl | rfl
          · exact Or.inl ⟨rfl, rfl⟩
          · exact Or.inr ⟨rfl, rfl⟩
    · intro e he
      rcases List.mem_append.mp he with he | he
      · rcases List.mem_map.mp he with ⟨gg, _, rfl⟩
        intro hc
        simp only at hc
        omega
      · exact siblingEdges_ne sim t _ hspnd e he
    · intro e he
      rcases List.mem_append.mp he with he | he
      · rcases List.mem_map.mp he with ⟨gg, _, rfl⟩
        intro hc
        simp only at hc
        omega
      · have hmem := (siblingEdges_mem_facts sim t _ e he).2.2
        have h1 := hids1 _ hmem
        omega

/-- Witness for C4: the spec's graph-construction scenario — topic keywords
`["best crm", "crm software", "crm pricing", "crm for startups"]`, page
groups `[[0, 1], [2], [3]]`, pillar index 0 (inside group `[0, 1]`). -/
theorem claim_C4_witness :
    ((0 : ℤ) ≤ 0 ∧ (0 : ℤ) < ((["best crm", "crm software", "crm pricing",
        "crm for startups"] : List String).length : ℤ)) ∧
    (∀ g ∈ ([[0, 1], [2], [3]] : List (List ℤ)), g ≠ [] ∧
      ∀ m ∈ g, 0 ≤ m ∧ m < ((["best crm", "crm software", "crm pricing",
        "crm for startups"] : List String).length : ℤ)) ∧
    ∃ G, build_hub_cluster_graph (fun _ _ => 1)
        ["best crm", "crm software", "crm pricing", "crm for startups"]
        [[0, 1], [2], [3]] 0 (1/2) = .ok G ∧
      HubGraphSpec (fun _ _ => 1)
        ["best crm", "crm software", "crm pricing", "crm for startups"]
        [[0, 1], [2], [3]] 0 (1/2) G :=
  ⟨⟨by decide, by decide⟩, by decide,
    claim_C4 (fun _ _ => 1)
      ["best crm", "crm software", "crm pricing", "crm for startups"]
      [[0, 1], [2], [3]] 0 (1/2) ⟨by decide, by decide⟩ (by decide)⟩

end Clusterer
